import Mathlib

/-!
# Verification of the majak build engine core

A shallow embedding, in Lean 4, of the parts of the majak build system
(a ninja-derived incremental build executor) that its specification makes
claims about:

* the 64-bit MurmurHash2 command hash (`src/lib/build_log.cc`),
* the persistent build log: record/load round trip, truncation recovery,
  version handling, idempotent deps recording (`src/lib/build_log.cc`),
* the pool admission controller (`src/lib/state.cc`) and the planner's
  `want`/`ready` bookkeeping (`src/lib/build.cc`),
* the manifest parser's edge handling (`src/lib/manifest_parser.cc`)
  together with the lexer (`src/lexer.cc`).

Machine integers are embedded as `Nat`/`Int` with explicit reductions
modulo `2^32` / `2^64` where the C++ code relies on fixed-width overflow.
Pointer identity of interned nodes is represented by the node's path
string (path interning makes that a bijection); pointer identity of edges
by a numeric edge id.  File I/O is modelled at the logical layer: writes
succeed, and the outcomes of `remove`/`truncate` calls are explicit
boolean parameters.
-/

namespace Majak

/-! ## MurmurHash64A (src/lib/build_log.cc lines 94-132)

Bytes are `Nat`s below 256; 64-bit arithmetic is `Nat` arithmetic with an
explicit `% 2^64` after every multiplication (xor and right-shift cannot
overflow). -/

/-- 2^64, the modulus of the 64-bit arithmetic in `MurmurHash64A`. -/
def u64 : Nat := 18446744073709551616

/-- `static const uint64_t seed = 0xDECAFBADDECAFBADull`. -/
def murmurSeed : Nat := 0xDECAFBADDECAFBAD

/-- `const uint64_t m = BIG_CONSTANT(0xc6a4a7935bd1e995)`. -/
def murmurM : Nat := 0xc6a4a7935bd1e995

/-- One 8-byte block read little-endian, as the `memcpy(&k, data, 8)`
in the source does on a little-endian host. -/
def leRead8 (b0 b1 b2 b3 b4 b5 b6 b7 : Nat) : Nat :=
  b0 + b1 * 256 + b2 * 65536 + b3 * 16777216 + b4 * 4294967296 +
    b5 * 1099511627776 + b6 * 281474976710656 + b7 * 72057594037927936

/-- The per-block mix of `MurmurHash64A`:
`k *= m; k ^= k >> r; k *= m;` with `r = 47`. -/
def murmurMix (k : Nat) : Nat :=
  let k1 := k * murmurM % u64
  let k2 := Nat.xor k1 (k1 >>> 47)
  k2 * murmurM % u64

/-- The `while (len >= 8)` loop body of `MurmurHash64A`:
`h ^= mix(k); h *= m;` over successive 8-byte blocks. -/
def murmurBody (h : Nat) : List Nat → Nat × List Nat
  | b0 :: b1 :: b2 :: b3 :: b4 :: b5 :: b6 :: b7 :: rest =>
      murmurBody (Nat.xor h (murmurMix (leRead8 b0 b1 b2 b3 b4 b5 b6 b7)) * murmurM % u64) rest
  | rest => (h, rest)

/-- The `switch (len & 7)` tail of `MurmurHash64A`: the cases fall
through, xoring byte `i` of the tail shifted left by `8*i`, and case 1
ends with `h *= m`.  `tail` here is the at-most-7-byte remainder. -/
def murmurTail (h : Nat) (tail : List Nat) : Nat :=
  match tail with
  | [] => h
  | _ :: _ =>
      let x := (List.enum tail).foldl (fun acc p => Nat.xor acc (p.2 <<< (8 * p.1))) h
      x * murmurM % u64

/-- The final avalanche: `h ^= h >> r; h *= m; h ^= h >> r;`. -/
def murmurFinal (h : Nat) : Nat :=
  let h1 := Nat.xor h (h >>> 47)
  let h2 := h1 * murmurM % u64
  Nat.xor h2 (h2 >>> 47)

/-- `MurmurHash64A(key, len)` over a byte list
(src/lib/build_log.cc lines 94-132). -/
def MurmurHash64A (data : List Nat) : Nat :=
  let h0 := Nat.xor murmurSeed (data.length * murmurM % u64)
  let (h1, tail) := murmurBody h0 data
  murmurFinal (murmurTail h1 tail)

/-- `BuildLog::HashCommand(command)` (src/lib/build_log.cc lines 167-169):
hashes the command's bytes with `MurmurHash64A`. -/
def HashCommand (command : List Nat) : Nat :=
  MurmurHash64A command

/-- Modelled from the spec: `RecomputeOutputsDirty` (its implementation,
graph.cc, is not among the sources; only its callers are).  Spec §4.E
gives its rules in order: missing output is dirty; an output older than
the most recent input is dirty (with `restat` the comparison uses the
stored restat mtime instead); a stored command hash differing from the
hash of the current command is dirty; an unreadable depfile is dirty;
otherwise clean. -/
def recomputeOutputsDirty (outputMtime mostRecentInput : Int) (restat : Bool)
    (restatMtime : Int) (storedHash currentHash : Nat) (depfileBad : Bool) : Bool :=
  if outputMtime = 0 then true
  else if (if restat then restatMtime < mostRecentInput else outputMtime < mostRecentInput)
    then true
  else if storedHash ≠ currentHash then true
  else if depfileBad then true
  else false

/-! ## Build log (src/lib/build_log.cc)

The on-disk format is a version entry followed by length-prefixed,
schema-verified records, each written and flushed atomically
(`FlushEntry`).  The embedding models the file as a list of records;
where byte offsets matter (truncation recovery) each record additionally
carries its body size in bytes, the 4-byte size prefix being accounted
for separately.  Node pointers are represented by interned path strings;
a node's log id is its index in the log's `nodes_` vector, which is how
`set_id`/`id()` relate to `nodes_` in every build-log code path. -/

/-- A command record: `log::BuildEntryT` (`BuildLog::LogEntry`). -/
structure LogEntry where
  output : String
  command_hash : Nat
  start_time : Int
  end_time : Int
  mtime : Int
deriving DecidableEq, Repr

/-- `BuildLog::Deps`: a deps record's in-memory form.  `node_count` in the
C++ struct always equals the length of its `nodes` array. -/
structure Deps where
  mtime : Int
  nodes : List String
deriving DecidableEq, Repr

/-- One on-disk record (`log::EntryHolder` union). -/
inductive Record where
  | version (v : Nat)
  | build (e : LogEntry)
  | pathRec (p : String) (checksum : Nat)
  | depsRec (out : Nat) (mtime : Int) (depIds : List Nat)
deriving DecidableEq, Repr

/-- `2^32 - 1`, used by the `~` of the path-record checksum. -/
def u32max : Nat := 4294967295

/-- The in-memory state of a `BuildLog`: the `entries_` map (association
list keyed by output path, unique keys), the `nodes_` id vector and the
`deps_` vector. -/
structure LogMem where
  entries : List (String × LogEntry)
  nodes : List String
  deps : List (Option Deps)
deriving DecidableEq, Repr

/-- The empty in-memory log. -/
def LogMem.empty : LogMem := ⟨[], [], []⟩

/-- Writer-side state: the in-memory log plus the file being appended to.
Writes are modelled as always succeeding. -/
structure BuildLogW where
  mem : LogMem
  file : List Record
deriving DecidableEq, Repr

/-- The `entries_.find`/insert/assign sequence common to
`BuildLog::RecordCommand` and the `BuildEntry` branch of `BuildLog::Load`:
update the entry for `p` in place, or append a fresh one. -/
def upsertEntry : List (String × LogEntry) → String → LogEntry → List (String × LogEntry)
  | [], p, e => [(p, e)]
  | (q, e0) :: rest, p, e =>
      if q = p then (q, e) :: rest else (q, e0) :: upsertEntry rest p e

/-- `Node::id()` relative to a log's `nodes_` vector: the index of the
first occurrence of the path, or `none` for `id() < 0` (no id yet). -/
def nodeIdOf (nodes : List String) (p : String) : Option Nat :=
  match nodes with
  | [] => none
  | q :: rest => if q = p then some 0 else (nodeIdOf rest p).map (· + 1)

/-- `BuildLog::UpdateDeps`: grow `deps_` to `out_id + 1` if needed, then
store the record at index `out_id`. -/
def updateDeps (l : List (Option Deps)) (i : Nat) (d : Deps) : List (Option Deps) :=
  (l ++ List.replicate (i + 1 - l.length) none).set i (some d)

/-- `BuildLog::GetDeps`: `nullptr` when the node has no id or the id is
past the end of `deps_`. -/
def getDeps (m : LogMem) (p : String) : Option Deps :=
  match nodeIdOf m.nodes p with
  | none => none
  | some i => m.deps.getD i none

/-- `BuildLog::RecordId`: write a path record whose checksum is the
one's complement of the new id, then push the node.  The `uint32_t` cast
of the id is the explicit `% 2^32`. -/
def recordId (st : BuildLogW) (p : String) : BuildLogW :=
  let id := st.mem.nodes.length
  { mem := { st.mem with nodes := st.mem.nodes ++ [p] },
    file := st.file ++ [.pathRec p (u32max - id % 4294967296)] }

/-- `BuildLog::RecordCommand(path, command_hash, start_time, end_time, mtime)`
(src/lib/build_log.cc lines 224-247): update or create the entry, then
append a `BuildEntry` record (`WriteEntry`). -/
def recordCommand (st : BuildLogW) (p : String) (hash : Nat) (startT endT mtime : Int) :
    BuildLogW × Bool :=
  let e : LogEntry := ⟨p, hash, startT, endT, mtime⟩
  ({ mem := { st.mem with entries := upsertEntry st.mem.entries p e },
     file := st.file ++ [.build e] }, true)

/-- One step of the id-assignment loop of `BuildLog::RecordDeps`:
`RecordId` the node if it has no id, accumulating `made_change`. -/
def assignStep (acc : BuildLogW × Bool) (p : String) : BuildLogW × Bool :=
  if (nodeIdOf acc.1.mem.nodes p).isNone then (recordId acc.1 p, true) else acc

/-- The id-assignment loop of `BuildLog::RecordDeps` over the dep nodes. -/
def assignIds (st : BuildLogW) (ps : List String) : BuildLogW × Bool :=
  ps.foldl assignStep (st, false)

/-- The id-assignment phase of `BuildLog::RecordDeps` (lines 260-272):
the output node first, then each dep node; the boolean is `made_change`
after the phase. -/
def depsAssign (st : BuildLogW) (output : String) (depNodes : List String) :
    BuildLogW × Bool :=
  let s1 :=
    if (nodeIdOf st.mem.nodes output).isNone then (recordId st output, true) else (st, false)
  let s2 := assignIds s1.1 depNodes
  (s2.1, s1.2 || s2.2)

/-- The `made_change` comparison of `BuildLog::RecordDeps`
(lines 274-287): with no freshly assigned id, compare the stored deps
record against the new data (mtime, count, node pointers in order). -/
def depsMadeChange (s : BuildLogW × Bool) (output : String) (mtime : Int)
    (depNodes : List String) : Bool :=
  if s.2 then true
  else
    match getDeps s.1.mem output with
    | none => true
    | some d =>
        d.mtime ≠ mtime || d.nodes.length ≠ depNodes.length || d.nodes ≠ depNodes

/-- The write phase of `BuildLog::RecordDeps` (lines 293-320): append a
`DepsEntry` record with the nodes' ids, then update the in-memory deps. -/
def depsWrite (st2 : BuildLogW) (output : String) (mtime : Int) (depNodes : List String) :
    BuildLogW × Bool :=
  let outId := (nodeIdOf st2.mem.nodes output).getD 0
  let ids := depNodes.map fun p => (nodeIdOf st2.mem.nodes p).getD 0
  ({ mem := { st2.mem with deps := updateDeps st2.mem.deps outId ⟨mtime, depNodes⟩ },
     file := st2.file ++ [.depsRec outId mtime ids] }, true)

/-- `BuildLog::RecordDeps(node, mtime, node_count, nodes)`
(src/lib/build_log.cc lines 255-321): assign missing ids; if nothing was
assigned, compare against the stored deps (`made_change`); if there is no
new information return `true` without touching the file or the state;
otherwise append a `DepsEntry` record and update the in-memory deps. -/
def recordDeps (st : BuildLogW) (output : String) (mtime : Int) (depNodes : List String) :
    BuildLogW × Bool :=
  if depsMadeChange (depsAssign st output depNodes) output mtime depNodes = false then
    ((depsAssign st output depNodes).1, true)
  else depsWrite (depsAssign st output depNodes).1 output mtime depNodes

/-- `BuildLog::kCurrentVersion`. -/
def kCurrentVersion : Nat := 1

/-- `BuildLog::kOldestSupportedVersion`. -/
def kOldestSupportedVersion : Nat := 1

/-- `VersionIsValid` (src/lib/build_log.cc lines 139-142). -/
def VersionIsValid (v : Nat) : Bool :=
  kOldestSupportedVersion ≤ v && v ≤ kCurrentVersion

/-- A write-time call to the build log. -/
inductive LogOp where
  | cmd (path : String) (hash : Nat) (startT endT mtime : Int)
  | deps (output : String) (mtime : Int) (depNodes : List String)
deriving DecidableEq, Repr

/-- Apply one writer call. -/
def applyOp (st : BuildLogW) : LogOp → BuildLogW
  | .cmd p h s e m => (recordCommand st p h s e m).1
  | .deps o m ns => (recordDeps st o m ns).1

/-- `OpenForWrite` on a fresh (empty) log file: the state is empty and
the version entry is written first. -/
def openFresh : BuildLogW := ⟨LogMem.empty, [.version kCurrentVersion]⟩

/-- Run a sequence of writer calls on a freshly opened log.  `Close`
flushes and closes the file without changing any state, so the state at
`Close` is the state after the last call. -/
def runOps (ops : List LogOp) : BuildLogW := ops.foldl applyOp openFresh

/-- One step of the record loop of `BuildLog::Load`
(src/lib/build_log.cc lines 421-501): `none` signals the
record-verification failure (`ReadStatus::kFailed`) on a path record
whose checksum does not match the expected id; a mid-stream version
entry matches none of the three branches and is skipped. -/
def loadOne (m : LogMem) : Record → Option LogMem
  | .version _ => some m
  | .build e => some { m with entries := upsertEntry m.entries e.output e }
  | .pathRec p checksum =>
      let expected := u32max - checksum % 4294967296
      let id := m.nodes.length
      if id ≠ expected then none
      else some { m with nodes := m.nodes ++ [p] }
  | .depsRec outId mtime depIds =>
      some { m with
             deps := updateDeps m.deps outId ⟨mtime, depIds.map fun i => m.nodes.getD i ""⟩ }

/-- Replay a list of records; returns the state reached and the index of
the first failing record, if any (the loop stops there). -/
def loadAll (m : LogMem) : List Record → LogMem × Option Nat
  | [] => (m, none)
  | r :: rest =>
      match loadOne m r with
      | none => (m, some 0)
      | some m1 =>
          let res := loadAll m1 rest
          (res.1, res.2.map (· + 1))

/-- What happened to the log file during `Load`. -/
inductive FileOutcome where
  | intact
  | truncatedTo (bytes : Nat)
  | removed
deriving DecidableEq, Repr

/-- The observable result of `BuildLog::Load`: the returned boolean, the
in-memory state, the file outcome, and the error/warning message. -/
structure LoadResult where
  ok : Bool
  mem : LogMem
  fileAfter : FileOutcome
  err : String
deriving DecidableEq, Repr

/-- On-disk size of a record with body size `s`: the 4-byte size prefix
plus the body. -/
def recSize (s : Nat) : Nat := 4 + s

/-- Total byte size of a file given as records with body sizes. -/
def totalSize (file : List (Record × Nat)) : Nat :=
  file.foldl (fun a r => a + recSize r.2) 0

/-- Reading records from a file truncated to `k` bytes: the fully
contained records, the bytes they occupy, and the leftover byte count
(strictly less than the next record's size when records remain). -/
def splitBytes : List (Record × Nat) → Nat → List Record × Nat × Nat
  | [], k => ([], 0, k)
  | (r, s) :: rest, k =>
      if recSize s ≤ k then
        let res := splitBytes rest (k - recSize s)
        (r :: res.1, recSize s + res.2.1, res.2.2)
      else ([], 0, k)

/-- The invalid-or-missing-version branch of `Load`
(src/lib/build_log.cc lines 394-412): delete the file and report success
(an empty log only causes a rebuild); report failure only if the removal
itself fails. -/
def loadInvalidVersion (msg : String) (removeOk : Bool) : LoadResult :=
  if removeOk then ⟨true, LogMem.empty, .removed, msg ++ "; starting over"⟩
  else ⟨false, LogMem.empty, .intact, "failed to remove invalid build log"⟩

/-- The recovery branch of `Load` (src/lib/build_log.cc lines 503-520):
truncate to the offset of the last fully read record and report success
with a "recovering" warning; report failure only if truncation fails. -/
def loadRecover (m : LogMem) (offset : Nat) (truncOk : Bool) : LoadResult :=
  if truncOk then ⟨true, m, .truncatedTo offset, "premature end of file; recovering"⟩
  else ⟨false, m, .intact, "premature end of file"⟩

/-- `BuildLog::Load` (src/lib/build_log.cc lines 329-542) on a file of
`k` bytes whose whole-record content is `file`: read the version entry
(a short read or a non-version first record means the version is
missing); on an invalid version delete the file; then replay records,
recovering by truncation on a short read or verification failure.
`removeOk`/`truncOk` are the outcomes of the filesystem calls. -/
def load (file : List (Record × Nat)) (k : Nat) (removeOk truncOk : Bool) : LoadResult :=
  let sp := splitBytes file k
  match sp.1 with
  | [] => loadInvalidVersion "missing log version entry" removeOk
  | r0 :: rest =>
      match r0 with
      | .version v =>
          if VersionIsValid v then
            let res := loadAll LogMem.empty rest
            match res.2 with
            | some j =>
                loadRecover res.1 (totalSize (file.take (j + 1))) truncOk
            | none =>
                if sp.2.2 = 0 then ⟨true, res.1, .intact, ""⟩
                else loadRecover res.1 sp.2.1 truncOk
          else
            loadInvalidVersion
              ("log version " ++ toString v ++ " too " ++
                (if v < kOldestSupportedVersion then "old" else "new") ++
                " (current " ++ toString kCurrentVersion ++ ")")
              removeOk
      | _ => loadInvalidVersion "missing log version entry" removeOk

/-- Attach body sizes to a record list; an untruncated `load` never
consults the sizes, so unit bodies are as good as any. -/
def withUnitSizes (rs : List Record) : List (Record × Nat) :=
  rs.map fun r => (r, 1)

/-- `Load` of a whole (untruncated) file. -/
def loadFull (rs : List Record) (removeOk : Bool) : LoadResult :=
  load (withUnitSizes rs) (totalSize (withUnitSizes rs)) removeOk true

/-! ### Basic lemmas about the build-log embedding -/

theorem totalSize_cons (r : Record) (s : Nat) (rest : List (Record × Nat)) :
    totalSize ((r, s) :: rest) = recSize s + totalSize rest := by
  simp only [totalSize]
  rw [List.foldl_cons]
  have h : ∀ (l : List (Record × Nat)) (a : Nat),
      l.foldl (fun a r => a + recSize r.2) a = a + l.foldl (fun a r => a + recSize r.2) 0 := by
    intro l
    induction l with
    | nil => simp
    | cons x xs ih => intro a; rw [List.foldl_cons, List.foldl_cons, ih, ih (0 + recSize x.2)]; omega
  rw [h rest (0 + recSize s)]
  omega

/-- Reading a whole file consumes every record with no leftover bytes. -/
theorem splitBytes_full (file : List (Record × Nat)) :
    splitBytes file (totalSize file) = (file.map Prod.fst, totalSize file, 0) := by
  induction file with
  | nil => rfl
  | cons hd rest ih =>
      obtain ⟨r, s⟩ := hd
      rw [totalSize_cons]
      simp only [splitBytes]
      rw [if_pos (by omega)]
      have h2 : recSize s + totalSize rest - recSize s = totalSize rest := by omega
      rw [h2, ih]
      simp

theorem nodeIdOf_lt_length {nodes : List String} {p : String} {i : Nat}
    (h : nodeIdOf nodes p = some i) : i < nodes.length := by
  induction nodes generalizing i with
  | nil => simp [nodeIdOf] at h
  | cons q rest ih =>
      simp only [nodeIdOf] at h
      by_cases hq : q = p
      · rw [if_pos hq] at h
        cases h
        simp
      · rw [if_neg hq] at h
        cases hi : nodeIdOf rest p with
        | none => rw [hi] at h; simp at h
        | some j =>
            rw [hi] at h
            simp only [Option.map_some'] at h
            cases h
            have := ih hi
            simp
            omega

theorem nodeIdOf_getD {nodes : List String} {p : String} {i : Nat}
    (h : nodeIdOf nodes p = some i) : nodes.getD i "" = p := by
  induction nodes generalizing i with
  | nil => simp [nodeIdOf] at h
  | cons q rest ih =>
      simp only [nodeIdOf] at h
      by_cases hq : q = p
      · rw [if_pos hq] at h
        cases h
        simpa using hq
      · rw [if_neg hq] at h
        cases hi : nodeIdOf rest p with
        | none => rw [hi] at h; simp at h
        | some j =>
            rw [hi] at h
            simp only [Option.map_some'] at h
            cases h
            simpa using ih hi

/-- An already assigned id is unchanged when nodes are appended. -/
theorem nodeIdOf_append_left {nodes : List String} {p : String} {i : Nat}
    (h : nodeIdOf nodes p = some i) (t : List String) :
    nodeIdOf (nodes ++ t) p = some i := by
  induction nodes generalizing i with
  | nil => simp [nodeIdOf] at h
  | cons q rest ih =>
      rw [List.cons_append]
      simp only [nodeIdOf] at h ⊢
      by_cases hq : q = p
      · rw [if_pos hq] at h ⊢
        exact h
      · rw [if_neg hq] at h ⊢
        cases hi : nodeIdOf rest p with
        | none => rw [hi] at h; simp at h
        | some j =>
            rw [hi] at h
            rw [ih hi]
            exact h

/-- After appending `p` itself, `p` certainly has an id. -/
theorem nodeIdOf_append_self (nodes : List String) (p : String) :
    (nodeIdOf (nodes ++ [p]) p).isSome := by
  induction nodes with
  | nil => simp [nodeIdOf]
  | cons q rest ih =>
      simp only [List.cons_append, nodeIdOf]
      by_cases hq : q = p
      · rw [if_pos hq]; rfl
      · rw [if_neg hq]
        cases hi : nodeIdOf (rest ++ [p]) p with
        | none => rw [hi] at ih; simp at ih
        | some j => simp

/-- `isSome` ids survive appends. -/
theorem nodeIdOf_isSome_append {nodes : List String} {p : String}
    (h : (nodeIdOf nodes p).isSome) (t : List String) :
    (nodeIdOf (nodes ++ t) p).isSome := by
  cases hi : nodeIdOf nodes p with
  | none => rw [hi] at h; simp at h
  | some i => rw [nodeIdOf_append_left hi t]; rfl

/-- The path-record checksum round-trips through the loader's complement
for every id the C++ `int` id space can reach. -/
theorem checksum_roundtrip {id : Nat} (h : id ≤ u32max) :
    u32max - (u32max - id % 4294967296) % 4294967296 = id := by
  have h2 : id % 4294967296 = id := Nat.mod_eq_of_lt (by unfold u32max at h; omega)
  rw [h2]
  have h3 : u32max - id < 4294967296 := by
    have := Nat.sub_le u32max id
    unfold u32max at *
    omega
  rw [Nat.mod_eq_of_lt h3]
  unfold u32max at *
  omega

/-- `loadAll` continues into a second segment when the first replays
cleanly. -/
theorem loadAll_append_ok {m : LogMem} {r1 : List Record} (r2 : List Record)
    (h : (loadAll m r1).2 = none) :
    loadAll m (r1 ++ r2) =
      ((loadAll (loadAll m r1).1 r2).1,
        ((loadAll (loadAll m r1).1 r2).2).map (· + r1.length)) := by
  induction r1 generalizing m with
  | nil =>
      simp only [loadAll, List.nil_append, List.length_nil]
      cases hx : (loadAll m r2).2 <;> simp [hx, Prod.ext_iff]
  | cons r rest ih =>
      cases h1 : loadOne m r with
      | none => simp [loadAll, h1] at h
      | some m1 =>
          simp only [loadAll, h1] at h ⊢
          simp only [loadAll, h1, List.cons_append, List.append_eq]
          have h2 : (loadAll m1 rest).2 = none := by
            cases hx : (loadAll m1 rest).2 <;> simp [hx] at h ⊢
          rw [ih h2]
          simp only [Option.map_map, List.length_cons]
          cases hx : (loadAll (loadAll m1 rest).1 r2).2 <;> simp [hx]

/-- `loadAll` never sees a second segment past a failure in the first. -/
theorem loadAll_append_fail {m : LogMem} {r1 : List Record} (r2 : List Record) {j : Nat}
    (h : (loadAll m r1).2 = some j) :
    loadAll m (r1 ++ r2) = loadAll m r1 := by
  induction r1 generalizing m j with
  | nil => simp [loadAll] at h
  | cons r rest ih =>
      cases h1 : loadOne m r with
      | none =>
          simp [loadAll, h1, List.cons_append, List.append_eq]
      | some m1 =>
          simp only [loadAll, h1] at h ⊢
          simp only [loadAll, h1, List.cons_append, List.append_eq]
          cases h2 : (loadAll m1 rest).2 with
          | none => rw [h2] at h; simp at h
          | some j1 => rw [ih h2, h2]

/-- On failure, the state reached by `loadAll` is the replay of the
records before the failing one. -/
theorem loadAll_fail_take {m : LogMem} {rs : List Record} {j : Nat}
    (h : (loadAll m rs).2 = some j) :
    (loadAll m rs).1 = (loadAll m (rs.take j)).1 := by
  induction rs generalizing m j with
  | nil => simp [loadAll] at h
  | cons r rest ih =>
      cases h1 : loadOne m r with
      | none =>
          simp only [loadAll, h1] at h ⊢
          cases h
          simp [List.take, loadAll]
      | some m1 =>
          simp only [loadAll, h1] at h ⊢
          cases h2 : (loadAll m1 rest).2 with
          | none => rw [h2] at h; simp at h
          | some j1 =>
              rw [h2] at h
              simp only [Option.map_some'] at h
              cases h
              simp only [List.take, loadAll, h1]
              exact ih h2


/-! ### C3: command-hash sensitivity -/

/-- A 16-byte command colliding with `collisionB` under `MurmurHash64A`
(two 8-byte blocks; the second block of `collisionB` is chosen so the
block mixes cancel). -/
def collisionA : List Nat :=
  [65, 65, 65, 65, 65, 65, 65, 65, 0, 0, 0, 0, 0, 0, 0, 0]

/-- The other command of the colliding pair. -/
def collisionB : List Nat :=
  [66, 65, 65, 65, 65, 65, 65, 65, 39, 72, 255, 219, 208, 81, 200, 62]

/-- C3 counterexample: two commands that differ in their very first byte
but share the same `HashCommand` value, so the hash comparison of the
dirty recomputation does not mark the output dirty.  A byte-level change
to a command therefore does not always force a rebuild. -/
theorem command_hash_collision_not_dirty :
    collisionA ≠ collisionB ∧
    HashCommand collisionA = HashCommand collisionB ∧
    recomputeOutputsDirty 5 3 false 0 (HashCommand collisionA) (HashCommand collisionB) false
      = false :=
  ⟨by decide, by decide, by decide⟩

/-- C3 (amended): whenever the stored command hash and the hash of the
current command differ, the dirty recomputation marks the output dirty;
a byte-level change to a command forces a rebuild exactly when it changes
the `MurmurHash64A` hash. -/
theorem command_hash_change_forces_dirty (c1 c2 : List Nat) (om mri : Int) (restat : Bool)
    (rm : Int) (dfb : Bool) (h : HashCommand c1 ≠ HashCommand c2) :
    recomputeOutputsDirty om mri restat rm (HashCommand c1) (HashCommand c2) dfb = true := by
  unfold recomputeOutputsDirty
  simp [h]

/-- Witness for `command_hash_change_forces_dirty` at the one-byte
commands `[0]` and `[1]`. -/
theorem command_hash_change_forces_dirty_witness :
    HashCommand [0] ≠ HashCommand [1] ∧
    recomputeOutputsDirty 5 3 false 0 (HashCommand [0]) (HashCommand [1]) false = true :=
  ⟨by decide, command_hash_change_forces_dirty [0] [1] 5 3 false 0 false (by decide)⟩

/-! ### C10: idempotent deps recording -/

/-- If every node already has an id, the id-assignment loop of
`RecordDeps` does nothing and reports no change. -/
theorem assignIds_all_some (st : BuildLogW) (ps : List String)
    (h : ∀ p ∈ ps, (nodeIdOf st.mem.nodes p).isSome) :
    assignIds st ps = (st, false) := by
  unfold assignIds
  induction ps with
  | nil => rfl
  | cons p rest ih =>
      rw [List.foldl_cons]
      have h1 : (nodeIdOf st.mem.nodes p).isNone = false := by
        have h2 := h p (by simp)
        cases hx : nodeIdOf st.mem.nodes p with
        | none => rw [hx] at h2; simp at h2
        | some i => simp
      simp only [assignStep, h1, Bool.false_eq_true, if_false]
      exact ih fun q hq => h q (by simp [hq])

/-- C10: if the output and every dependency already have log ids and the
stored deps record matches (same mtime, same count, identical node list),
`RecordDeps` returns `true` without writing any record and leaves both
the file and the in-memory state unchanged. -/
theorem recordDeps_idempotent (st : BuildLogW) (output : String) (mtime : Int)
    (depNodes : List String)
    (hout : (nodeIdOf st.mem.nodes output).isSome)
    (hdeps : ∀ p ∈ depNodes, (nodeIdOf st.mem.nodes p).isSome)
    (hstored : getDeps st.mem output = some ⟨mtime, depNodes⟩) :
    recordDeps st output mtime depNodes = (st, true) := by
  have h1 : (nodeIdOf st.mem.nodes output).isNone = false := by
    cases hx : nodeIdOf st.mem.nodes output with
    | none => rw [hx] at hout; simp at hout
    | some i => simp
  have hassign : depsAssign st output depNodes = (st, false) := by
    unfold depsAssign
    simp only [h1, Bool.false_eq_true, if_false]
    rw [assignIds_all_some st depNodes hdeps]
    rfl
  have hmc : depsMadeChange (st, false) output mtime depNodes = false := by
    unfold depsMadeChange
    simp [hstored]
  unfold recordDeps
  rw [hassign, hmc]
  simp

/-- Witness for `recordDeps_idempotent` on a log that already holds the
record `out -> [a]` at mtime 7. -/
theorem recordDeps_idempotent_witness :
    (nodeIdOf (⟨⟨[], ["out", "a"], [some ⟨7, ["a"]⟩]⟩, []⟩ : BuildLogW).mem.nodes "out").isSome ∧
    recordDeps ⟨⟨[], ["out", "a"], [some ⟨7, ["a"]⟩]⟩, []⟩ "out" 7 ["a"] =
      (⟨⟨[], ["out", "a"], [some ⟨7, ["a"]⟩]⟩, []⟩, true) :=
  ⟨by decide,
    recordDeps_idempotent ⟨⟨[], ["out", "a"], [some ⟨7, ["a"]⟩]⟩, []⟩ "out" 7 ["a"]
      (by decide) (by decide) (by decide)⟩

/-! ### C8: invalid log version never blocks the build -/

theorem withUnitSizes_fst (rs : List Record) :
    (withUnitSizes rs).map Prod.fst = rs := by
  induction rs with
  | nil => rfl
  | cons r rest ih => simp only [withUnitSizes, List.map_cons] at ih ⊢; rw [ih]

/-- C8: when the version entry is missing (absent, unreadable or simply
not a version entry) or its version is outside
`[kOldestSupportedVersion, kCurrentVersion]`, `Load` deletes the log file
and returns success with a warning, leaving the in-memory log empty; it
returns `false` exactly when deleting the file fails. -/
theorem invalid_version_never_blocks (rs : List Record) (removeOk : Bool)
    (hbad : ∀ v, rs.head? = some (.version v) → VersionIsValid v = false) :
    (loadFull rs removeOk).mem = LogMem.empty ∧
    (loadFull rs removeOk).ok = removeOk ∧
    (removeOk = true →
      (loadFull rs removeOk).fileAfter = .removed ∧ (loadFull rs removeOk).err ≠ "") := by
  have hinv : ∀ msg, (loadInvalidVersion msg removeOk).mem = LogMem.empty ∧
      (loadInvalidVersion msg removeOk).ok = removeOk ∧
      (removeOk = true → (loadInvalidVersion msg removeOk).fileAfter = .removed ∧
        (loadInvalidVersion msg removeOk).err ≠ "") := by
    intro msg
    cases removeOk with
    | false => simp [loadInvalidVersion]
    | true =>
        refine ⟨by simp [loadInvalidVersion], by simp [loadInvalidVersion],
          fun _ => ⟨by simp [loadInvalidVersion], fun hcon => ?_⟩⟩
        simp only [loadInvalidVersion, if_pos] at hcon
        have hlen := congrArg String.length hcon
        rw [String.length_append] at hlen
        have h15 : ("; starting over" : String).length = 15 := rfl
        have h0 : ("" : String).length = 0 := rfl
        rw [h15, h0] at hlen
        omega
  unfold loadFull load
  rw [splitBytes_full, withUnitSizes_fst]
  cases rs with
  | nil => exact hinv _
  | cons r0 rest =>
      cases r0 with
      | version v =>
          have := hbad v (by rfl)
          simp only [this, Bool.false_eq_true, if_false]
          exact hinv _
      | build e => exact hinv _
      | pathRec p c => exact hinv _
      | depsRec o m d => exact hinv _

/-- Witness for `invalid_version_never_blocks`: a log whose first record
carries the unsupported version 2 is deleted and `Load` succeeds. -/
theorem invalid_version_never_blocks_witness :
    (∀ v, ([Record.version 2] : List Record).head? = some (.version v) →
      VersionIsValid v = false) ∧
    (loadFull [Record.version 2] true).mem = LogMem.empty ∧
    (loadFull [Record.version 2] true).ok = true := by
  have hbad : ∀ v, ([Record.version 2] : List Record).head? = some (.version v) →
      VersionIsValid v = false := by
    intro v hv
    have h2 : Record.version 2 = Record.version v := by simpa using hv
    cases h2
    decide
  exact ⟨hbad, (invalid_version_never_blocks [Record.version 2] true hbad).1,
    (invalid_version_never_blocks [Record.version 2] true hbad).2.1⟩


/-! ### C1: build-log round trip -/

/-- `st'` extends `st` by appended records whose replay carries `st`'s
memory to `st'`'s memory without failure. -/
def Extends (st st' : BuildLogW) : Prop :=
  ∃ d, st'.file = st.file ++ d ∧ loadAll st.mem d = (st'.mem, none) ∧
    st.mem.nodes <+: st'.mem.nodes

theorem Extends.refl (st : BuildLogW) : Extends st st :=
  ⟨[], by simp, by simp [loadAll], List.prefix_rfl⟩

theorem Extends.trans {s1 s2 s3 : BuildLogW} (h1 : Extends s1 s2) (h2 : Extends s2 s3) :
    Extends s1 s3 := by
  obtain ⟨d1, hf1, hl1, hp1⟩ := h1
  obtain ⟨d2, hf2, hl2, hp2⟩ := h2
  refine ⟨d1 ++ d2, by rw [hf2, hf1, List.append_assoc], ?_, hp1.trans hp2⟩
  rw [loadAll_append_ok d2 (by rw [hl1]), hl1, hl2]
  rfl

/-- Loading back a freshly written path record passes the checksum check
and assigns the same id. -/
theorem extends_recordId (st : BuildLogW) (p : String)
    (h : st.mem.nodes.length ≤ u32max) :
    Extends st (recordId st p) := by
  refine ⟨[.pathRec p (u32max - st.mem.nodes.length % 4294967296)], rfl, ?_, ?_⟩
  · simp only [loadAll, loadOne, checksum_roundtrip h]
    simp [recordId]
  · simp only [recordId]
    exact List.prefix_append _ _

theorem extends_recordCommand (st : BuildLogW) (p : String) (hash : Nat)
    (startT endT mtime : Int) :
    Extends st (recordCommand st p hash startT endT mtime).1 := by
  refine ⟨[.build ⟨p, hash, startT, endT, mtime⟩], rfl, ?_, ?_⟩
  · simp [loadAll, loadOne, recordCommand]
  · simp [recordCommand]

/-- The id-assignment loop extends the log, and afterwards every listed
node has an id. -/
theorem assignGo_sync (ps : List String) :
    ∀ (st : BuildLogW) (b : Bool),
      (ps.foldl assignStep (st, b)).1.mem.nodes.length ≤ u32max →
      Extends st (ps.foldl assignStep (st, b)).1 ∧
      ∀ p ∈ ps, (nodeIdOf (ps.foldl assignStep (st, b)).1.mem.nodes p).isSome := by
  induction ps with
  | nil =>
      intro st b h
      exact ⟨Extends.refl st, by simp⟩
  | cons p rest ih =>
      intro st b h
      rw [List.foldl_cons] at h ⊢
      by_cases hc : (nodeIdOf st.mem.nodes p).isNone
      · have hstep : assignStep (st, b) p = (recordId st p, true) := by
          simp [assignStep, hc]
        rw [hstep] at h ⊢
        obtain ⟨hx, hall⟩ := ih (recordId st p) true h
        have hlen : st.mem.nodes.length ≤ u32max := by
          obtain ⟨d, hf, hl, hp⟩ := hx
          have h2 := hp.length_le
          have hr : (recordId st p).mem.nodes.length = st.mem.nodes.length + 1 := by
            simp [recordId]
          omega
        refine ⟨(extends_recordId st p hlen).trans hx, ?_⟩
        intro q hq
        rcases List.mem_cons.mp hq with hq | hq
        · subst hq
          obtain ⟨d, hf, hl, hp⟩ := hx
          obtain ⟨t, ht⟩ := hp
          rw [← ht]
          have h3 := nodeIdOf_append_self st.mem.nodes q
          have h4 := nodeIdOf_isSome_append h3 t
          simpa [recordId] using h4
        · exact hall q hq
      · have hstep : assignStep (st, b) p = (st, b) := by
          simp [assignStep, hc]
        rw [hstep] at h ⊢
        obtain ⟨hx, hall⟩ := ih st b h
        refine ⟨hx, ?_⟩
        intro q hq
        rcases List.mem_cons.mp hq with hq | hq
        · subst hq
          obtain ⟨d, hf, hl, hp⟩ := hx
          obtain ⟨t, ht⟩ := hp
          rw [← ht]
          have hs : (nodeIdOf st.mem.nodes q).isSome := by
            cases hz : nodeIdOf st.mem.nodes q with
            | none => rw [hz] at hc; simp at hc
            | some i => rfl
          exact nodeIdOf_isSome_append hs t
        · exact hall q hq

/-- The whole assignment phase of `RecordDeps`: the log is extended and
the output node and every dep node end up with ids. -/
theorem depsAssign_sync (st : BuildLogW) (output : String) (depNodes : List String)
    (hb : (depsAssign st output depNodes).1.mem.nodes.length ≤ u32max) :
    Extends st (depsAssign st output depNodes).1 ∧
    (nodeIdOf (depsAssign st output depNodes).1.mem.nodes output).isSome ∧
    ∀ p ∈ depNodes, (nodeIdOf (depsAssign st output depNodes).1.mem.nodes p).isSome := by
  unfold depsAssign assignIds at hb ⊢
  by_cases hc : (nodeIdOf st.mem.nodes output).isNone
  · have hct : (nodeIdOf st.mem.nodes output).isNone = true := hc
    simp only [hct, if_true] at hb ⊢
    obtain ⟨hx, hall⟩ := assignGo_sync depNodes (recordId st output) false
      (by simpa [assignIds] using hb)
    have hlen : st.mem.nodes.length ≤ u32max := by
      obtain ⟨d, hf, hl, hp⟩ := hx
      have h2 := hp.length_le
      have hr : (recordId st output).mem.nodes.length = st.mem.nodes.length + 1 := by
        simp [recordId]
      omega
    refine ⟨(extends_recordId st output hlen).trans hx, ?_, hall⟩
    obtain ⟨d, hf, hl, hp⟩ := hx
    obtain ⟨t, ht⟩ := hp
    rw [← ht]
    have h3 := nodeIdOf_append_self st.mem.nodes output
    have h4 := nodeIdOf_isSome_append h3 t
    simpa [recordId] using h4
  · have hcf : (nodeIdOf st.mem.nodes output).isNone = false := by
      cases hz : nodeIdOf st.mem.nodes output with
      | none => rw [hz] at hc; simp at hc
      | some i => simp
    simp only [hcf, Bool.false_eq_true, if_false] at hb ⊢
    obtain ⟨hx, hall⟩ := assignGo_sync depNodes st false (by simpa [assignIds] using hb)
    refine ⟨hx, ?_, hall⟩
    obtain ⟨d, hf, hl, hp⟩ := hx
    obtain ⟨t, ht⟩ := hp
    rw [← ht]
    have hs : (nodeIdOf st.mem.nodes output).isSome := by
      cases hz : nodeIdOf st.mem.nodes output with
      | none => rw [hz] at hc; simp at hc
      | some i => rfl
    exact nodeIdOf_isSome_append hs t

/-- Writing deps ids and resolving them back through the node table is
the identity on the dep paths. -/
theorem resolve_ids (nodes : List String) (ps : List String)
    (h : ∀ p ∈ ps, (nodeIdOf nodes p).isSome) :
    (ps.map fun p => (nodeIdOf nodes p).getD 0).map (fun i => nodes.getD i "") = ps := by
  induction ps with
  | nil => rfl
  | cons p rest ih =>
      simp only [List.map_cons, List.cons.injEq]
      constructor
      · cases hz : nodeIdOf nodes p with
        | none =>
            have h2 := h p (by simp)
            rw [hz] at h2
            simp at h2
        | some i =>
            simpa [hz] using nodeIdOf_getD hz
      · exact ih fun q hq => h q (by simp [hq])

theorem extends_recordDeps (st : BuildLogW) (output : String) (mtime : Int)
    (depNodes : List String)
    (hb : (recordDeps st output mtime depNodes).1.mem.nodes.length ≤ u32max) :
    Extends st (recordDeps st output mtime depNodes).1 := by
  have hshape : (recordDeps st output mtime depNodes).1.mem.nodes =
      (depsAssign st output depNodes).1.mem.nodes := by
    unfold recordDeps
    split
    · rfl
    · rfl
  rw [hshape] at hb
  obtain ⟨hx, hout, hdeps⟩ := depsAssign_sync st output depNodes hb
  unfold recordDeps
  split
  · exact hx
  · refine hx.trans ?_
    unfold depsWrite
    refine ⟨[.depsRec ((nodeIdOf (depsAssign st output depNodes).1.mem.nodes output).getD 0)
        mtime (depNodes.map fun p =>
          (nodeIdOf (depsAssign st output depNodes).1.mem.nodes p).getD 0)], rfl, ?_, ?_⟩
    · simp only [loadAll, loadOne]
      rw [resolve_ids _ _ hdeps]
      rfl
    · exact List.prefix_rfl

theorem extends_applyOp (st : BuildLogW) (op : LogOp)
    (hb : (applyOp st op).mem.nodes.length ≤ u32max) :
    Extends st (applyOp st op) := by
  cases op with
  | cmd p h s e m => exact extends_recordCommand st p h s e m
  | deps o m ns => exact extends_recordDeps st o m ns hb

/-- Run writer calls starting from an arbitrary open log. -/
def runFrom (st : BuildLogW) (ops : List LogOp) : BuildLogW :=
  ops.foldl applyOp st

theorem extends_runFrom (ops : List LogOp) :
    ∀ st : BuildLogW, (runFrom st ops).mem.nodes.length ≤ u32max →
      Extends st (runFrom st ops) := by
  induction ops with
  | nil => intro st _; exact Extends.refl st
  | cons op rest ih =>
      intro st h
      have heq : runFrom st (op :: rest) = runFrom (applyOp st op) rest := by
        simp [runFrom]
      rw [heq] at h ⊢
      have h2 := ih (applyOp st op) h
      have hlen : (applyOp st op).mem.nodes.length ≤ u32max := by
        obtain ⟨d, hf, hl, hp⟩ := h2
        have := hp.length_le
        omega
      exact (extends_applyOp st op hlen).trans h2

/-- C1: any sequence of `RecordCommand` and `RecordDeps` calls on a
freshly opened log, followed by `Close`, writes a file from which a fresh
`Load` succeeds and rebuilds exactly the writer's in-memory state
(entries map, nodes vector, deps vector).  The hypothesis keeps the log
ids inside the 32-bit id space of the on-disk checksum. -/
theorem buildlog_roundtrip (ops : List LogOp)
    (hb : (runOps ops).mem.nodes.length ≤ u32max) :
    loadFull (runOps ops).file true =
      ⟨true, (runOps ops).mem, .intact, ""⟩ := by
  have h0 : runOps ops = runFrom openFresh ops := rfl
  rw [h0] at hb ⊢
  obtain ⟨d, hf, hl, hp⟩ := extends_runFrom ops openFresh hb
  unfold loadFull load
  rw [splitBytes_full, withUnitSizes_fst, hf]
  have hopen : openFresh.file = [Record.version kCurrentVersion] := rfl
  rw [hopen]
  simp only [List.cons_append, List.nil_append]
  have hval : VersionIsValid kCurrentVersion = true := by decide
  simp only [hval, if_true, if_pos]
  have hl2 : loadAll LogMem.empty d = ((runFrom openFresh ops).mem, none) := hl
  rw [hl2]

/-- Witness for `buildlog_roundtrip` on a concrete five-call history. -/
theorem buildlog_roundtrip_witness :
    (runOps [.cmd "out" 42 1 2 100, .deps "out" 100 ["a", "b"],
      .cmd "out" 43 3 4 200, .deps "out2" 7 ["b", "c"],
      .deps "out" 100 ["a", "b"]]).mem.nodes.length ≤ u32max ∧
    loadFull (runOps [.cmd "out" 42 1 2 100, .deps "out" 100 ["a", "b"],
      .cmd "out" 43 3 4 200, .deps "out2" 7 ["b", "c"],
      .deps "out" 100 ["a", "b"]]).file true =
      ⟨true, (runOps [.cmd "out" 42 1 2 100, .deps "out" 100 ["a", "b"],
        .cmd "out" 43 3 4 200, .deps "out2" 7 ["b", "c"],
        .deps "out" 100 ["a", "b"]]).mem, .intact, ""⟩ :=
  ⟨by decide,
    buildlog_roundtrip [.cmd "out" 42 1 2 100, .deps "out" 100 ["a", "b"],
      .cmd "out" 43 3 4 200, .deps "out2" 7 ["b", "c"],
      .deps "out" 100 ["a", "b"]] (by decide)⟩

/-! ### C2: truncation recovery -/

/-- The records fully contained in a byte-truncated file form a prefix
of the file's records. -/
theorem splitBytes_isPrefix (file : List (Record × Nat)) (k : Nat) :
    ∃ n, (splitBytes file k).1 = (file.map Prod.fst).take n := by
  induction file generalizing k with
  | nil => exact ⟨0, rfl⟩
  | cons hd rest ih =>
      obtain ⟨r, sz⟩ := hd
      simp only [splitBytes]
      by_cases hle : recSize sz ≤ k
      · rw [if_pos hle]
        obtain ⟨n, hn⟩ := ih (k - recSize sz)
        exact ⟨n + 1, by simp [hn]⟩
      · rw [if_neg hle]
        exact ⟨0, rfl⟩

/-- C2: loading any byte prefix of a log file succeeds: the cut may fall
inside the version entry (the file is then deleted) or inside any later
record (the file is then truncated to the offset of the last fully read
record with a "recovering" warning), and the in-memory state loaded is
always the replay of a prefix of the file's record history.
Filesystem remove/truncate are taken to succeed. -/
theorem buildlog_truncation_recovery (file : List (Record × Nat)) (k : Nat) :
    ((load file k true true).ok = true) ∧
    (∃ n, (load file k true true).mem =
      (loadAll LogMem.empty (((file.map Prod.fst).drop 1).take n)).1) ∧
    (∀ v rest, (splitBytes file k).1 = .version v :: rest → VersionIsValid v = true →
      (loadAll LogMem.empty rest).2 = none → (splitBytes file k).2.2 ≠ 0 →
      (load file k true true).fileAfter = .truncatedTo (splitBytes file k).2.1 ∧
      (load file k true true).err = "premature end of file; recovering") := by
  obtain ⟨n, hpre⟩ := splitBytes_isPrefix file k
  simp only [load]
  cases hsp : (splitBytes file k).1 with
  | nil =>
      refine ⟨rfl, ⟨0, by simp [loadAll, loadInvalidVersion]⟩, ?_⟩
      intro v rest heq
      simp at heq
  | cons r0 rest0 =>
      have hrest : rest0 = ((file.map Prod.fst).drop 1).take (n - 1) := by
        have h1 : (r0 :: rest0).drop 1 = ((file.map Prod.fst).take n).drop 1 := by
          rw [← hsp, hpre]
        rw [List.drop_take] at h1
        simpa using h1
      cases r0 with
      | version v =>
          by_cases hval : VersionIsValid v = true
          · simp only [hval, if_true]
            cases hfail : (loadAll LogMem.empty rest0).2 with
            | some j =>
                simp only [hfail]
                refine ⟨rfl, ⟨min j (n - 1), ?_⟩, ?_⟩
                · have h2 := loadAll_fail_take (m := LogMem.empty) hfail
                  rw [loadRecover, if_pos rfl]
                  simp only []
                  rw [h2, hrest, List.take_take]
                · intro v2 rest2 heq _ hnone _
                  cases heq
                  rw [hfail] at hnone
                  simp at hnone
            | none =>
                simp only [hfail]
                by_cases hrem : (splitBytes file k).2.2 = 0
                · rw [if_pos hrem]
                  refine ⟨rfl, ⟨n - 1, by rw [← hrest]⟩, ?_⟩
                  intro v2 rest2 heq _ _ hne
                  exact absurd hrem hne
                · rw [if_neg hrem]
                  refine ⟨rfl, ⟨n - 1, ?_⟩, ?_⟩
                  · rw [loadRecover, if_pos rfl]
                    simp only []
                    rw [← hrest]
                  · intro v2 rest2 heq _ _ _
                    cases heq
                    exact ⟨rfl, rfl⟩
          · have hvf : VersionIsValid v = false := by
              cases hz : VersionIsValid v with
              | false => rfl
              | true => exact absurd hz hval
            simp only [hvf, Bool.false_eq_true, if_false]
            refine ⟨rfl, ⟨0, by simp [loadAll, loadInvalidVersion]⟩, ?_⟩
            intro v2 rest2 heq hval2
            cases heq
            exact absurd hval2 hval
      | build e =>
          refine ⟨rfl, ⟨0, by simp [loadAll, loadInvalidVersion]⟩, ?_⟩
          intro v2 rest2 heq
          simp at heq
      | pathRec p c =>
          refine ⟨rfl, ⟨0, by simp [loadAll, loadInvalidVersion]⟩, ?_⟩
          intro v2 rest2 heq
          simp at heq
      | depsRec o m d =>
          refine ⟨rfl, ⟨0, by simp [loadAll, loadInvalidVersion]⟩, ?_⟩
          intro v2 rest2 heq
          simp at heq

/-- Witness for `buildlog_truncation_recovery`: a three-record file of
9 bytes per record cut at byte 20, i.e. inside the third record; `Load`
succeeds, truncating the file to offset 18. -/
theorem buildlog_truncation_recovery_witness :
    (load [(Record.version 1, 5), (.build ⟨"o", 1, 2, 3, 4⟩, 5),
        (.build ⟨"p", 5, 6, 7, 8⟩, 5)] 20 true true).ok = true ∧
    (splitBytes [(Record.version 1, 5), (.build ⟨"o", 1, 2, 3, 4⟩, 5),
        (.build ⟨"p", 5, 6, 7, 8⟩, 5)] 20).2.1 = 18 ∧
    (load [(Record.version 1, 5), (.build ⟨"o", 1, 2, 3, 4⟩, 5),
        (.build ⟨"p", 5, 6, 7, 8⟩, 5)] 20 true true).fileAfter =
      .truncatedTo (splitBytes [(Record.version 1, 5), (.build ⟨"o", 1, 2, 3, 4⟩, 5),
        (.build ⟨"p", 5, 6, 7, 8⟩, 5)] 20).2.1 ∧
    (load [(Record.version 1, 5), (.build ⟨"o", 1, 2, 3, 4⟩, 5),
        (.build ⟨"p", 5, 6, 7, 8⟩, 5)] 20 true true).err =
      "premature end of file; recovering" := by
  have h := buildlog_truncation_recovery
    [(Record.version 1, 5), (.build ⟨"o", 1, 2, 3, 4⟩, 5), (.build ⟨"p", 5, 6, 7, 8⟩, 5)] 20
  have h3 := h.2.2 1 [.build ⟨"o", 1, 2, 3, 4⟩] (by decide) (by decide) (by decide) (by decide)
  exact ⟨h.1, by decide, h3.1, h3.2⟩

/-! ## Pools and the planner (src/lib/state.cc, src/lib/build.cc)

Edges are identified by numeric ids standing for the `Edge*` pointers
(`a < b` on ids models the pointer comparison), nodes by numeric ids.
The graph produced by the manifest parse is static during planning; the
mutable planner state (`want_`, `ready_`, pool charge and delay sets,
`outputs_ready_`, node dirty bits) is explicit.  The builder's set of
in-flight edges (edges returned by `FindWork` and not yet finished) is
carried as `running` so that the claims about running edges can be
stated. -/

/-- Static per-edge data.  `weight` is `Edge::weight()` (graph.h is not
among the sources; the spec reserves weights for future use with weight 1,
and `Pool::WeightedEdgeCmp` reads it as a genuine integer). -/
structure EdgeInfo where
  pool : Nat
  weight : Nat
  phony : Bool
  inputs : List Nat
  orderOnly : Nat
  outputs : List Nat
  depsMissing : Bool

/-- The static build graph: edge data, each node's producing edge and
consuming edges, pool depths, node mtimes (read by `CleanNode`'s
`most_recent_input` recomputation). -/
structure BuildGraph where
  edgeOf : Nat → EdgeInfo
  inEdge : Nat → Option Nat
  outEdges : Nat → List Nat
  poolDepth : Nat → Nat
  mtimeOf : Nat → Int

/-- `Plan::Want`. -/
inductive Want where
  | nothing
  | toStart
  | toFinish
deriving DecidableEq, Repr

/-- The mutable planner state. -/
structure PlanState where
  want : List (Nat × Want)
  readyQ : List Nat
  running : List Nat
  wantedEdges : Int
  commandEdges : Int
  currentUse : Nat → Int
  delayed : Nat → List Nat
  outputsReady : Nat → Bool
  dirtyN : Nat → Bool

/-- `want_.find(e)` as map lookup (first matching key). -/
def lookupWant : List (Nat × Want) → Nat → Option Want
  | [], _ => none
  | (k, w) :: rest, e => if k = e then some w else lookupWant rest e

/-- Assignment through the map iterator: update the value of `e`. -/
def setWant : List (Nat × Want) → Nat → Want → List (Nat × Want)
  | [], _, _ => []
  | (k, w) :: rest, e, v =>
      if k = e then (k, v) :: rest else (k, w) :: setWant rest e v

/-- `want_.erase(e)`. -/
def eraseWant : List (Nat × Want) → Nat → List (Nat × Want)
  | [], _ => []
  | (k, w) :: rest, e => if k = e then rest else (k, w) :: eraseWant rest e

/-- Number of `want_` entries whose value is not `kWantNothing`. -/
def countWanted (w : List (Nat × Want)) : Nat :=
  (w.filter fun kv => kv.2 ≠ .nothing).length

/-- Insertion into the pointer-ordered `std::set<Edge*> ready_`. -/
def insertSorted (q : List Nat) (e : Nat) : List Nat :=
  match q with
  | [] => [e]
  | x :: rest =>
      if e < x then e :: x :: rest
      else if e = x then x :: rest
      else x :: insertSorted rest e

/-- `Pool::WeightedEdgeCmp` (src/lib/state.cc lines 64-71): strict order
on edges by weight, ties broken by pointer value.  The null-pointer
guards of the source are dropped: the model has no null edges. -/
def weightedEdgeCmp (G : BuildGraph) (a b : Nat) : Bool :=
  ((G.edgeOf a).weight < (G.edgeOf b).weight) ||
    ((G.edgeOf a).weight = (G.edgeOf b).weight && a < b)

/-- Insertion into the `WeightedEdgeCmp`-ordered `std::set` `delayed_`. -/
def delayedInsert (G : BuildGraph) (l : List Nat) (e : Nat) : List Nat :=
  match l with
  | [] => [e]
  | x :: rest =>
      if weightedEdgeCmp G e x then e :: x :: rest
      else if e = x then x :: rest
      else x :: delayedInsert G rest e

/-- `Pool::EdgeScheduled` (src/lib/state.cc lines 26-29), applied to the
edge's pool: charge the weight unless the pool is unbounded. -/
def poolEdgeScheduled (G : BuildGraph) (s : PlanState) (e : Nat) : PlanState :=
  if G.poolDepth (G.edgeOf e).pool ≠ 0 then
    { s with currentUse := fun q =>
        if q = (G.edgeOf e).pool then s.currentUse q + (G.edgeOf e).weight
        else s.currentUse q }
  else s

/-- `Pool::EdgeFinished` (src/lib/state.cc lines 31-34). -/
def poolEdgeFinishedOp (G : BuildGraph) (s : PlanState) (e : Nat) : PlanState :=
  if G.poolDepth (G.edgeOf e).pool ≠ 0 then
    { s with currentUse := fun q =>
        if q = (G.edgeOf e).pool then s.currentUse q - (G.edgeOf e).weight
        else s.currentUse q }
  else s

/-- `Pool::DelayEdge` (src/lib/state.cc lines 36-39), on pool `p`. -/
def poolDelayEdge (G : BuildGraph) (s : PlanState) (p e : Nat) : PlanState :=
  { s with delayed := fun q =>
      if q = p then delayedInsert G (s.delayed p) e else s.delayed q }

/-- The loop of `Pool::RetrieveReadyEdges` (src/lib/state.cc lines
41-52): walk the delayed set in order, moving edges out while the next
edge still fits (`current_use_ + weight > depth_` breaks), charging the
pool for each admitted edge (`EdgeScheduled` is a no-op at depth 0).
Returns (admitted, final use, remaining delayed). -/
def retrieveLoop (G : BuildGraph) (depth : Nat) (use : Int) :
    List Nat → List Nat × Int × List Nat
  | [] => ([], use, [])
  | e :: rest =>
      if use + (G.edgeOf e).weight > (depth : Int) then ([], use, e :: rest)
      else
        let use1 := if depth ≠ 0 then use + (G.edgeOf e).weight else use
        let r := retrieveLoop G depth use1 rest
        (e :: r.1, r.2.1, r.2.2)

/-- `Pool::RetrieveReadyEdges` on pool `p`, inserting the admitted edges
into `ready_`. -/
def poolRetrieve (G : BuildGraph) (s : PlanState) (p : Nat) : PlanState :=
  let r := retrieveLoop G (G.poolDepth p) (s.currentUse p) (s.delayed p)
  { s with
    readyQ := r.1.foldl insertSorted s.readyQ,
    currentUse := fun q => if q = p then r.2.1 else s.currentUse q,
    delayed := fun q => if q = p then r.2.2 else s.delayed q }

/-- Modelled from the spec: `Edge::AllInputsReady` (graph.h is not among
the sources).  An input is ready when it has no producing edge or its
producing edge's outputs are ready. -/
def allInputsReady (G : BuildGraph) (s : PlanState) (e : Nat) : Bool :=
  (G.edgeOf e).inputs.all fun n =>
    match G.inEdge n with
    | none => true
    | some pe => s.outputsReady pe

/-- `Plan::ScheduleWork` (src/lib/build.cc lines 370-391): idempotent on
already-scheduled (`kWantToFinish`) edges; otherwise mark `kWantToFinish`
and either delay into the pool (`ShouldDelayEdge`, i.e. `depth_ != 0`,
modelled from the spec since state.h is not among the sources) followed
by a retrieve, or charge and insert into `ready_` directly. -/
def scheduleWork (G : BuildGraph) (s : PlanState) (e : Nat) : PlanState :=
  match lookupWant s.want e with
  | some .toFinish => s
  | _ =>
      let s1 := { s with want := setWant s.want e .toFinish }
      if G.poolDepth (G.edgeOf e).pool ≠ 0 then
        poolRetrieve G (poolDelayEdge G s1 (G.edgeOf e).pool e) (G.edgeOf e).pool
      else
        let s2 := poolEdgeScheduled G s1 e
        { s2 with readyQ := insertSorted s2.readyQ e }

/-- `Plan::FindWork` (src/lib/build.cc lines 361-368) combined with the
builder picking the edge up: pop the smallest ready edge and mark it
running. -/
def findWorkOp (s : PlanState) : PlanState :=
  match s.readyQ with
  | [] => s
  | e :: rest => { s with readyQ := rest, running := e :: s.running }

/-- The tasks of the mutually recursive pair
`Plan::EdgeFinished`/`Plan::NodeFinished`. -/
inductive PlanTask where
  | edgeFinished (e : Nat) (success : Bool)
  | nodeFinished (n : Nat)

/-- `Plan::EdgeFinished` (src/lib/build.cc lines 393-417) and
`Plan::NodeFinished` (lines 419-438), fuelled for the mutual recursion
(the C++ recursion terminates because `want_` shrinks; every theorem
below holds for every fuel).  `EdgeFinished` releases the pool charge for
directly wanted edges, retrieves newly admitted delayed edges and, on
success, erases the edge from `want_`, marks its outputs ready and runs
`NodeFinished` on each output.  `NodeFinished` schedules each wanted
consumer whose inputs became ready and transitively finishes unwanted
ones. -/
def planStepF (G : BuildGraph) : Nat → PlanState → PlanTask → PlanState
  | 0, s, _ => s
  | Nat.succ fuel, s, .edgeFinished e success =>
      let dw := ((lookupWant s.want e).getD .nothing) ≠ .nothing
      let s1 := if dw then poolEdgeFinishedOp G s e else s
      let s2 := poolRetrieve G s1 (G.edgeOf e).pool
      if success = false then s2
      else
        let s3 := { s2 with
          wantedEdges := if dw then s2.wantedEdges - 1 else s2.wantedEdges,
          want := eraseWant s2.want e,
          outputsReady := fun x => if x = e then true else s2.outputsReady x }
        (G.edgeOf e).outputs.foldl (fun acc n => planStepF G fuel acc (.nodeFinished n)) s3
  | Nat.succ fuel, s, .nodeFinished n =>
      (G.outEdges n).foldl
        (fun acc oe =>
          match lookupWant acc.want oe with
          | none => acc
          | some w =>
              if allInputsReady G acc oe then
                if w ≠ .nothing then scheduleWork G acc oe
                else planStepF G fuel acc (.edgeFinished oe true)
              else acc)
        s

/-- The tasks of the recursive `Plan::AddSubTarget` (a node, or the loop
over an edge's inputs). -/
inductive AddTask where
  | node (n : Nat)
  | nodes (ns : List Nat)

/-- `Plan::AddTarget`/`Plan::AddSubTarget` (src/lib/build.cc lines
310-359), fuelled.  Returns (state, returned-true, error-set): a dirty
leaf without a rule is the error case; a clean leaf or an edge with ready
outputs returns false without error; a newly inserted edge recurses into
its inputs, aborting when a recursive call fails with an error. -/
def addSubF (G : BuildGraph) : Nat → PlanState → AddTask → PlanState × Bool × Bool
  | 0, s, _ => (s, false, false)
  | Nat.succ fuel, s, .node n =>
      match G.inEdge n with
      | none => if s.dirtyN n then (s, false, true) else (s, false, false)
      | some e =>
          if s.outputsReady e then (s, false, false)
          else
            let existed := (lookupWant s.want e).isSome
            let s1 := if existed then s else { s with want := s.want ++ [(e, .nothing)] }
            let w := (lookupWant s1.want e).getD .nothing
            let s2 :=
              if s.dirtyN n && w == .nothing then
                let sa := { s1 with want := setWant s1.want e .toStart,
                                    wantedEdges := s1.wantedEdges + 1 }
                let sb := if allInputsReady G sa e then scheduleWork G sa e else sa
                if (G.edgeOf e).phony = false then
                  { sb with commandEdges := sb.commandEdges + 1 }
                else sb
              else s1
            if existed then (s2, true, false)
            else addSubF G fuel s2 (.nodes (G.edgeOf e).inputs)
  | Nat.succ _fuel, s, .nodes [] => (s, true, false)
  | Nat.succ fuel, s, .nodes (n :: rest) =>
      let r := addSubF G fuel s (.node n)
      if r.2.1 = false ∧ r.2.2 = true then (r.1, false, true)
      else addSubF G fuel r.1 (.nodes rest)

/-- `most_recent_input` recomputation of `Plan::CleanNode`
(src/lib/build.cc lines 460-465). -/
def mostRecentInput (G : BuildGraph) (ns : List Nat) : Option Nat :=
  ns.foldl
    (fun acc i =>
      match acc with
      | none => some i
      | some j => if G.mtimeOf i > G.mtimeOf j then some i else some j)
    none

/-- The tasks of the recursive `Plan::CleanNode` (a node, the loop over
a node's out-edges, the loop over an edge's outputs). -/
inductive CleanTask where
  | node (n : Nat)
  | edges (es : List Nat)
  | outs (os : List Nat)

/-- `Plan::CleanNode` (src/lib/build.cc lines 440-490), fuelled.
`oracle` stands for the external `DependencyScan::RecomputeOutputsDirty`
(graph.cc, consulting disk and log): given the edge and its recomputed
`most_recent_input` it reports the outputs' dirtiness, or `none` for an
error, which aborts with `false`.  A wanted, deps-complete out-edge all
of whose non-order-only inputs are clean has its outputs cleaned
recursively and is dropped from `want_` when its outputs are no longer
dirty.  Exhausting the fuel aborts with `false` and no effect: it models
a recursive call that has not returned (on a build graph with a
dependency cycle the C++ recursion does not terminate), and the abort
propagates outward performing no further state changes, so the states
produced are exactly those at control-flow points the source reaches. -/
def cleanNodeF (G : BuildGraph) (oracle : Nat → Option Nat → Option Bool) :
    Nat → PlanState → CleanTask → PlanState × Bool
  | 0, s, _ => (s, false)
  | Nat.succ fuel, s, .node n =>
      let s1 := { s with dirtyN := fun x => if x = n then false else s.dirtyN x }
      cleanNodeF G oracle fuel s1 (.edges (G.outEdges n))
  | Nat.succ _, s, .edges [] => (s, true)
  | Nat.succ fuel, s, .edges (oe :: rest) =>
      match lookupWant s.want oe with
      | none => cleanNodeF G oracle fuel s (.edges rest)
      | some w =>
          if w = .nothing then cleanNodeF G oracle fuel s (.edges rest)
          else if (G.edgeOf oe).depsMissing then cleanNodeF G oracle fuel s (.edges rest)
          else
            let nonOO := (G.edgeOf oe).inputs.take
              ((G.edgeOf oe).inputs.length - (G.edgeOf oe).orderOnly)
            if nonOO.all fun i => s.dirtyN i = false then
              match oracle oe (mostRecentInput G nonOO) with
              | none => (s, false)
              | some outputsDirty =>
                  if outputsDirty = false then
                    let r := cleanNodeF G oracle fuel s (.outs (G.edgeOf oe).outputs)
                    if r.2 = false then (r.1, false)
                    else
                      let s2 := { r.1 with
                        want := setWant r.1.want oe .nothing,
                        wantedEdges := r.1.wantedEdges - 1 }
                      let s3 :=
                        if (G.edgeOf oe).phony = false then
                          { s2 with commandEdges := s2.commandEdges - 1 }
                        else s2
                      cleanNodeF G oracle fuel s3 (.edges rest)
                  else cleanNodeF G oracle fuel s (.edges rest)
            else cleanNodeF G oracle fuel s (.edges rest)
  | Nat.succ _, s, .outs [] => (s, true)
  | Nat.succ fuel, s, .outs (o :: rest) =>
      let r := cleanNodeF G oracle fuel s (.node o)
      if r.2 = false then (r.1, false)
      else cleanNodeF G oracle fuel r.1 (.outs rest)

/-- The planner states reachable from `Plan::Reset` (empty plan, no pool
charge; dirty bits are whatever the preceding dirty scan produced and
`outputs_ready_` whatever `State::Reset` left) by the public operations:
`AddTarget`, `FindWork` (with the builder holding the edge as running),
`ScheduleWork` (on an entry the source's assert admits), `EdgeFinished`
on a running edge, and `CleanNode` under any dirtiness oracle. -/
inductive PlanReach (G : BuildGraph) : PlanState → Prop where
  | init (d oready : Nat → Bool) :
      PlanReach G
        { want := [], readyQ := [], running := [], wantedEdges := 0, commandEdges := 0,
          currentUse := fun _ => 0, delayed := fun _ => [], outputsReady := oready,
          dirtyN := d }
  | addTarget {s} (fuel n : Nat) :
      PlanReach G s → PlanReach G (addSubF G fuel s (.node n)).1
  | findWork {s} :
      PlanReach G s → PlanReach G (findWorkOp s)
  | schedule {s} (e : Nat)
      (h : lookupWant s.want e = some .toStart ∨ lookupWant s.want e = some .toFinish) :
      PlanReach G s → PlanReach G (scheduleWork G s e)
  | edgeFinished {s} (fuel e : Nat) (success : Bool) (hrun : e ∈ s.running) :
      PlanReach G s →
      PlanReach G (planStepF G fuel { s with running := s.running.erase e }
        (.edgeFinished e success))
  | cleanNode {s} (fuel : Nat) (oracle : Nat → Option Nat → Option Bool) (n : Nat) :
      PlanReach G s → PlanReach G (cleanNodeF G oracle fuel s (.node n)).1

/-- Total weight, among the edges of `l`, of those belonging to pool `p`. -/
def sumW (G : BuildGraph) (p : Nat) : List Nat → Nat
  | [] => 0
  | e :: rest =>
      (if (G.edgeOf e).pool = p then (G.edgeOf e).weight else 0) + sumW G p rest

/-- The weight charged against pool `p` by the edges currently scheduled
(in `ready_`) or running. -/
def poolLoad (G : BuildGraph) (s : PlanState) (p : Nat) : Nat :=
  sumW G p (s.readyQ ++ s.running)

/-! ### Planner invariants: basic lemmas -/

theorem foldlPreserve {α β : Type} {P : α → Prop} {f : α → β → α}
    (hf : ∀ a b, P a → P (f a b)) :
    ∀ (l : List β) (a : α), P a → P (l.foldl f a) := by
  intro l
  induction l with
  | nil => intro a h; exact h
  | cons b rest ih => intro a h; exact ih (f a b) (hf a b h)

theorem countWanted_cons (k : Nat) (w0 : Want) (rest : List (Nat × Want)) :
    countWanted ((k, w0) :: rest) = (if w0 ≠ Want.nothing then 1 else 0) + countWanted rest := by
  by_cases h : w0 = Want.nothing <;> simp [countWanted, List.filter, h] <;> omega

theorem countWanted_setWant {w : List (Nat × Want)} {e : Nat} {old : Want} (v : Want)
    (h : lookupWant w e = some old) :
    countWanted (setWant w e v) + (if old ≠ Want.nothing then 1 else 0) =
      countWanted w + (if v ≠ Want.nothing then 1 else 0) := by
  induction w with
  | nil => simp [lookupWant] at h
  | cons kv rest ih =>
      obtain ⟨k, w0⟩ := kv
      simp only [lookupWant] at h
      by_cases hk : k = e
      · rw [if_pos hk] at h
        cases h
        simp only [setWant, if_pos hk]
        rw [countWanted_cons, countWanted_cons]
        omega
      · rw [if_neg hk] at h
        simp only [setWant, if_neg hk]
        rw [countWanted_cons, countWanted_cons]
        have := ih h
        omega

theorem setWant_of_none {w : List (Nat × Want)} {e : Nat} (v : Want)
    (h : lookupWant w e = none) : setWant w e v = w := by
  induction w with
  | nil => rfl
  | cons kv rest ih =>
      obtain ⟨k, w0⟩ := kv
      simp only [lookupWant] at h
      by_cases hk : k = e
      · rw [if_pos hk] at h; cases h
      · rw [if_neg hk] at h
        simp only [setWant, if_neg hk, ih h]

theorem countWanted_erase {w : List (Nat × Want)} {e : Nat} {old : Want}
    (h : lookupWant w e = some old) :
    countWanted (eraseWant w e) + (if old ≠ Want.nothing then 1 else 0) =
      countWanted w := by
  induction w with
  | nil => simp [lookupWant] at h
  | cons kv rest ih =>
      obtain ⟨k, w0⟩ := kv
      simp only [lookupWant] at h
      by_cases hk : k = e
      · rw [if_pos hk] at h
        cases h
        simp only [eraseWant, if_pos hk]
        rw [countWanted_cons]
        omega
      · rw [if_neg hk] at h
        simp only [eraseWant, if_neg hk]
        rw [countWanted_cons, countWanted_cons]
        have := ih h
        omega

theorem eraseWant_of_none {w : List (Nat × Want)} {e : Nat}
    (h : lookupWant w e = none) : eraseWant w e = w := by
  induction w with
  | nil => rfl
  | cons kv rest ih =>
      obtain ⟨k, w0⟩ := kv
      simp only [lookupWant] at h
      by_cases hk : k = e
      · rw [if_pos hk] at h; cases h
      · rw [if_neg hk] at h
        simp only [eraseWant, if_neg hk, ih h]

theorem countWanted_append_nothing (w : List (Nat × Want)) (e : Nat) :
    countWanted (w ++ [(e, Want.nothing)]) = countWanted w := by
  induction w with
  | nil => simp [countWanted]
  | cons kv rest ih =>
      obtain ⟨k, w0⟩ := kv
      rw [List.cons_append, countWanted_cons, countWanted_cons, ih]

theorem lookupWant_setWant_self {w : List (Nat × Want)} {e : Nat} {old : Want} (v : Want)
    (h : lookupWant w e = some old) :
    lookupWant (setWant w e v) e = some v := by
  induction w with
  | nil => simp [lookupWant] at h
  | cons kv rest ih =>
      obtain ⟨k, w0⟩ := kv
      simp only [lookupWant] at h
      by_cases hk : k = e
      · simp [setWant, lookupWant, hk]
      · rw [if_neg hk] at h
        simp only [setWant, if_neg hk, lookupWant, if_neg hk]
        exact ih h

theorem lookupWant_append_none {w : List (Nat × Want)} {e : Nat} (v : Want)
    (h : lookupWant w e = none) :
    lookupWant (w ++ [(e, v)]) e = some v := by
  induction w with
  | nil => simp [lookupWant]
  | cons kv rest ih =>
      obtain ⟨k, w0⟩ := kv
      simp only [lookupWant] at h
      by_cases hk : k = e
      · rw [if_pos hk] at h; cases h
      · rw [if_neg hk] at h
        simp only [List.cons_append, lookupWant, if_neg hk]
        exact ih h

theorem sumW_append (G : BuildGraph) (p : Nat) (l1 l2 : List Nat) :
    sumW G p (l1 ++ l2) = sumW G p l1 + sumW G p l2 := by
  induction l1 with
  | nil => simp [sumW]
  | cons e rest ih =>
      simp only [List.cons_append, List.append_eq, sumW] at ih ⊢
      omega

theorem sumW_insertSorted_le (G : BuildGraph) (p : Nat) (q : List Nat) (e : Nat) :
    sumW G p (insertSorted q e) ≤
      (if (G.edgeOf e).pool = p then (G.edgeOf e).weight else 0) + sumW G p q := by
  induction q with
  | nil => simp [insertSorted, sumW]
  | cons x rest ih =>
      simp only [insertSorted]
      by_cases h1 : e < x
      · simp only [if_pos h1, sumW]; omega
      · rw [if_neg h1]
        by_cases h2 : e = x
        · simp only [if_pos h2, sumW]; omega
        · simp only [if_neg h2, sumW]; omega

theorem sumW_insert_fold_le (G : BuildGraph) (p : Nat) :
    ∀ (adm q : List Nat),
      sumW G p (adm.foldl insertSorted q) ≤ sumW G p q + sumW G p adm := by
  intro adm
  induction adm with
  | nil => intro q; simp [sumW]
  | cons e rest ih =>
      intro q
      rw [List.foldl_cons]
      have h1 := ih (insertSorted q e)
      have h2 := sumW_insertSorted_le G p q e
      simp only [sumW]
      omega

theorem sumW_erase_le (G : BuildGraph) (p : Nat) :
    ∀ (l : List Nat) (e : Nat), sumW G p (l.erase e) ≤ sumW G p l := by
  intro l
  induction l with
  | nil => intro e; simp [sumW]
  | cons x rest ih =>
      intro e
      rw [List.erase_cons]
      by_cases h : x = e
      · rw [if_pos (by simp [h])]
        subst h
        simp only [sumW]
        omega
      · rw [if_neg (by simp [h])]
        simp only [sumW]
        have := ih e
        omega

theorem sumW_erase_mem (G : BuildGraph) (p : Nat) :
    ∀ (l : List Nat) (e : Nat), e ∈ l →
      sumW G p (l.erase e) +
        (if (G.edgeOf e).pool = p then (G.edgeOf e).weight else 0) = sumW G p l := by
  intro l
  induction l with
  | nil => intro e h; simp at h
  | cons x rest ih =>
      intro e h
      rw [List.erase_cons]
      by_cases hx : x = e
      · rw [if_pos (by simp [hx])]
        subst hx
        simp only [sumW]
        omega
      · rw [if_neg (by simp [hx])]
        simp only [sumW]
        have hm : e ∈ rest := by
          rcases List.mem_cons.mp h with h1 | h1
          · exact absurd h1.symm hx
          · exact h1
        have := ih e hm
        omega

/-- Total weight of a list of edges. -/
def sumWts (G : BuildGraph) : List Nat → Nat
  | [] => 0
  | e :: rest => (G.edgeOf e).weight + sumWts G rest

theorem sumW_le_sumWts (G : BuildGraph) (p : Nat) :
    ∀ l : List Nat, sumW G p l ≤ sumWts G l := by
  intro l
  induction l with
  | nil => simp [sumW, sumWts]
  | cons e rest ih =>
      simp only [sumW, sumWts]
      by_cases h : (G.edgeOf e).pool = p <;> simp [h] <;> omega

theorem sumW_of_other (G : BuildGraph) {p : Nat} (q : Nat) :
    ∀ l : List Nat, (∀ e ∈ l, (G.edgeOf e).pool = p) → q ≠ p → sumW G q l = 0 := by
  intro l
  induction l with
  | nil => intro _ _; rfl
  | cons e rest ih =>
      intro h hq
      have he := h e (by simp)
      simp only [sumW]
      rw [if_neg (by rw [he]; exact fun hx => hq hx.symm)]
      rw [ih (fun x hx => h x (by simp [hx])) hq]

theorem retrieveLoop_split (G : BuildGraph) (depth : Nat) :
    ∀ (l : List Nat) (use : Int),
      (retrieveLoop G depth use l).1 ++ (retrieveLoop G depth use l).2.2 = l := by
  intro l
  induction l with
  | nil => intro use; rfl
  | cons e rest ih =>
      intro use
      simp only [retrieveLoop]
      by_cases h : use + (G.edgeOf e).weight > (depth : Int)
      · simp [h]
      · simp only [if_neg h, List.cons_append, List.cons.injEq, true_and]
        exact ih _

theorem retrieveLoop_use (G : BuildGraph) {depth : Nat} (hd : depth ≠ 0) :
    ∀ (l : List Nat) (use : Int),
      (retrieveLoop G depth use l).2.1 = use + sumWts G (retrieveLoop G depth use l).1 := by
  intro l
  induction l with
  | nil => intro use; simp [retrieveLoop, sumWts]
  | cons e rest ih =>
      intro use
      simp only [retrieveLoop]
      by_cases h : use + (G.edgeOf e).weight > (depth : Int)
      · simp [h, sumWts]
      · simp only [if_neg h, if_pos hd, hd]
        simp only [sumWts]
        rw [ih (use + (G.edgeOf e).weight)]
        push_cast
        ring

theorem retrieveLoop_le (G : BuildGraph) {depth : Nat} :
    ∀ (l : List Nat) (use : Int), use ≤ (depth : Int) →
      (retrieveLoop G depth use l).2.1 ≤ (depth : Int) := by
  intro l
  induction l with
  | nil => intro use h; exact h
  | cons e rest ih =>
      intro use h
      simp only [retrieveLoop]
      by_cases hgt : use + (G.edgeOf e).weight > (depth : Int)
      · rw [if_pos hgt]
        exact h
      · rw [if_neg hgt]
        by_cases hd : depth ≠ 0
        · rw [if_pos hd]
          exact ih (use + (G.edgeOf e).weight) (by omega)
        · rw [if_neg hd]
          exact ih use h

theorem mem_delayedInsert (G : BuildGraph) :
    ∀ (l : List Nat) (e x : Nat), x ∈ delayedInsert G l e → x ∈ l ∨ x = e := by
  intro l
  induction l with
  | nil =>
      intro e x h
      simp [delayedInsert] at h
      exact Or.inr h
  | cons y rest ih =>
      intro e x h
      simp only [delayedInsert] at h
      by_cases h1 : weightedEdgeCmp G e y = true
      · rw [if_pos h1] at h
        rcases List.mem_cons.mp h with h2 | h2
        · exact Or.inr h2
        · exact Or.inl h2
      · rw [if_neg h1] at h
        by_cases h2 : e = y
        · rw [if_pos h2] at h
          exact Or.inl h
        · rw [if_neg h2] at h
          rcases List.mem_cons.mp h with h3 | h3
          · exact Or.inl (by simp [h3])
          · rcases ih e x h3 with h4 | h4
            · exact Or.inl (by simp [h4])
            · exact Or.inr h4

theorem sumW_of_all (G : BuildGraph) {p : Nat} :
    ∀ l : List Nat, (∀ e ∈ l, (G.edgeOf e).pool = p) → sumW G p l = sumWts G l := by
  intro l
  induction l with
  | nil => intro _; rfl
  | cons e rest ih =>
      intro h
      simp only [sumW, sumWts]
      rw [if_pos (h e (by simp)), ih fun x hx => h x (by simp [hx])]

/-- The pool invariant: for every bounded pool the total weight of
scheduled or running edges is covered by the pool's charge, which never
exceeds the depth, and a pool's delay set only holds its own edges. -/
def PoolInv (G : BuildGraph) (s : PlanState) : Prop :=
  (∀ p, G.poolDepth p ≠ 0 →
    (poolLoad G s p : Int) ≤ s.currentUse p ∧ s.currentUse p ≤ (G.poolDepth p : Int)) ∧
  (∀ p e, e ∈ s.delayed p → (G.edgeOf e).pool = p)

/-- The counter invariant: `wanted_edges_` counts the non-`kWantNothing`
entries of `want_`. -/
def WantInv (s : PlanState) : Prop :=
  s.wantedEdges = (countWanted s.want : Int)

theorem poolRetrieve_want (G : BuildGraph) (s : PlanState) (p : Nat) :
    (poolRetrieve G s p).want = s.want ∧
    (poolRetrieve G s p).wantedEdges = s.wantedEdges := ⟨rfl, rfl⟩

theorem poolEdgeScheduled_want (G : BuildGraph) (s : PlanState) (e : Nat) :
    (poolEdgeScheduled G s e).want = s.want ∧
    (poolEdgeScheduled G s e).wantedEdges = s.wantedEdges := by
  unfold poolEdgeScheduled
  split <;> exact ⟨rfl, rfl⟩

theorem poolEdgeFinishedOp_want (G : BuildGraph) (s : PlanState) (e : Nat) :
    (poolEdgeFinishedOp G s e).want = s.want ∧
    (poolEdgeFinishedOp G s e).wantedEdges = s.wantedEdges := by
  unfold poolEdgeFinishedOp
  split <;> exact ⟨rfl, rfl⟩

theorem scheduleWork_want_core (G : BuildGraph) (s : PlanState) (e : Nat) :
    ((
      if G.poolDepth (G.edgeOf e).pool ≠ 0 then
        poolRetrieve G (poolDelayEdge G { s with want := setWant s.want e .toFinish }
          (G.edgeOf e).pool e) (G.edgeOf e).pool
      else
        { poolEdgeScheduled G { s with want := setWant s.want e .toFinish } e with
          readyQ := insertSorted (poolEdgeScheduled G
            { s with want := setWant s.want e .toFinish } e).readyQ e }).want = s.want ∨
      (
      if G.poolDepth (G.edgeOf e).pool ≠ 0 then
        poolRetrieve G (poolDelayEdge G { s with want := setWant s.want e .toFinish }
          (G.edgeOf e).pool e) (G.edgeOf e).pool
      else
        { poolEdgeScheduled G { s with want := setWant s.want e .toFinish } e with
          readyQ := insertSorted (poolEdgeScheduled G
            { s with want := setWant s.want e .toFinish } e).readyQ e }).want =
        setWant s.want e .toFinish) ∧
    (
      if G.poolDepth (G.edgeOf e).pool ≠ 0 then
        poolRetrieve G (poolDelayEdge G { s with want := setWant s.want e .toFinish }
          (G.edgeOf e).pool e) (G.edgeOf e).pool
      else
        { poolEdgeScheduled G { s with want := setWant s.want e .toFinish } e with
          readyQ := insertSorted (poolEdgeScheduled G
            { s with want := setWant s.want e .toFinish } e).readyQ e }).wantedEdges =
      s.wantedEdges := by
  by_cases hd : G.poolDepth (G.edgeOf e).pool ≠ 0
  · rw [if_pos hd]
    refine ⟨Or.inr rfl, rfl⟩
  · rw [if_neg hd]
    refine ⟨Or.inr ?_, ?_⟩
    · have := (poolEdgeScheduled_want G { s with want := setWant s.want e .toFinish } e).1
      simpa using this
    · have := (poolEdgeScheduled_want G { s with want := setWant s.want e .toFinish } e).2
      simpa using this

/-- `ScheduleWork` leaves `want_` with the edge marked `kWantToFinish`
and does not touch the counter. -/
theorem scheduleWork_want (G : BuildGraph) (s : PlanState) (e : Nat) :
    ((scheduleWork G s e).want = s.want ∨
      (scheduleWork G s e).want = setWant s.want e .toFinish) ∧
    (scheduleWork G s e).wantedEdges = s.wantedEdges := by
  unfold scheduleWork
  cases hv : lookupWant s.want e with
  | some w =>
      cases w with
      | toFinish => exact ⟨Or.inl rfl, rfl⟩
      | nothing => exact scheduleWork_want_core G s e
      | toStart => exact scheduleWork_want_core G s e
  | none => exact scheduleWork_want_core G s e

theorem scheduleWork_want_inv (G : BuildGraph) (s : PlanState) (e : Nat)
    (hlk : lookupWant s.want e = some .toStart ∨ lookupWant s.want e = some .toFinish)
    (h : WantInv s) : WantInv (scheduleWork G s e) := by
  obtain ⟨hw, hc⟩ := scheduleWork_want G s e
  unfold WantInv at h ⊢
  rcases hw with hw | hw
  · rw [hw, hc]
    exact h
  · rw [hw, hc]
    rcases hlk with hlk | hlk
    · have := countWanted_setWant (v := Want.toFinish) hlk
      simp at this
      omega
    · have := countWanted_setWant (v := Want.toFinish) hlk
      simp at this
      omega

theorem poolRetrieve_inv (G : BuildGraph) (s : PlanState) (p : Nat)
    (h : PoolInv G s) : PoolInv G (poolRetrieve G s p) := by
  obtain ⟨h2, h3⟩ := h
  have hsplit := retrieveLoop_split G (G.poolDepth p) (s.delayed p) (s.currentUse p)
  have hadm : ∀ e ∈ (retrieveLoop G (G.poolDepth p) (s.currentUse p) (s.delayed p)).1,
      (G.edgeOf e).pool = p := by
    intro e he
    exact h3 p e (by rw [← hsplit]; exact List.mem_append.mpr (Or.inl he))
  have hrem : ∀ e ∈ (retrieveLoop G (G.poolDepth p) (s.currentUse p) (s.delayed p)).2.2,
      e ∈ s.delayed p := by
    intro e he
    rw [← hsplit]
    exact List.mem_append.mpr (Or.inr he)
  refine ⟨?_, ?_⟩
  · intro q hq
    have hload : poolLoad G (poolRetrieve G s p) q =
        sumW G q ((retrieveLoop G (G.poolDepth p) (s.currentUse p) (s.delayed p)).1.foldl
          insertSorted s.readyQ) + sumW G q s.running := by
      simp only [poolLoad, poolRetrieve, sumW_append]
    have hd0 := (h2 q hq).1
    simp only [poolLoad, sumW_append] at hd0
    by_cases hqp : q = p
    · subst hqp
      have huse : (poolRetrieve G s q).currentUse q =
          (retrieveLoop G (G.poolDepth q) (s.currentUse q) (s.delayed q)).2.1 := by
        simp [poolRetrieve]
      have ha := sumW_insert_fold_le G q
        (retrieveLoop G (G.poolDepth q) (s.currentUse q) (s.delayed q)).1 s.readyQ
      have hb := sumW_of_all G
        (retrieveLoop G (G.poolDepth q) (s.currentUse q) (s.delayed q)).1 hadm
      have hc := retrieveLoop_use G hq (s.delayed q) (s.currentUse q)
      constructor
      · rw [hload, huse]
        omega
      · rw [huse]
        exact retrieveLoop_le G (s.delayed q) (s.currentUse q) (h2 q hq).2
    · have huse : (poolRetrieve G s p).currentUse q = s.currentUse q := by
        simp [poolRetrieve, hqp]
      have ha := sumW_insert_fold_le G q
        (retrieveLoop G (G.poolDepth p) (s.currentUse p) (s.delayed p)).1 s.readyQ
      have hb := sumW_of_other G q
        (retrieveLoop G (G.poolDepth p) (s.currentUse p) (s.delayed p)).1 hadm hqp
      constructor
      · rw [hload, huse]
        omega
      · rw [huse]
        exact (h2 q hq).2
  · intro q e he
    simp only [poolRetrieve] at he
    by_cases hqp : q = p
    · subst hqp
      rw [if_pos rfl] at he
      exact h3 q e (hrem e he)
    · rw [if_neg hqp] at he
      exact h3 q e he

theorem findWorkOp_inv (G : BuildGraph) (s : PlanState)
    (h : PoolInv G s) : PoolInv G (findWorkOp s) := by
  obtain ⟨h2, h3⟩ := h
  unfold findWorkOp
  cases hq : s.readyQ with
  | nil => exact ⟨h2, h3⟩
  | cons e rest =>
      refine ⟨?_, h3⟩
      intro p hp
      have := h2 p hp
      simp only [poolLoad, hq, sumW_append, List.cons_append, sumW] at this ⊢
      constructor
      · have : (sumW G p rest + ((if (G.edgeOf e).pool = p then (G.edgeOf e).weight else 0) +
            sumW G p s.running) : Int) ≤ s.currentUse p := by
          push_cast at this ⊢
          omega
        push_cast at this ⊢
        omega
      · exact this.2

theorem scheduleWork_pool_core (G : BuildGraph) (s : PlanState) (e : Nat)
    (h2 : ∀ p, G.poolDepth p ≠ 0 →
      (poolLoad G s p : Int) ≤ s.currentUse p ∧ s.currentUse p ≤ (G.poolDepth p : Int))
    (h3 : ∀ p x, x ∈ s.delayed p → (G.edgeOf x).pool = p) :
    PoolInv G (
      if G.poolDepth (G.edgeOf e).pool ≠ 0 then
        poolRetrieve G (poolDelayEdge G { s with want := setWant s.want e .toFinish }
          (G.edgeOf e).pool e) (G.edgeOf e).pool
      else
        { poolEdgeScheduled G { s with want := setWant s.want e .toFinish } e with
          readyQ := insertSorted (poolEdgeScheduled G
            { s with want := setWant s.want e .toFinish } e).readyQ e }) := by
  by_cases hd : G.poolDepth (G.edgeOf e).pool ≠ 0
  · rw [if_pos hd]
    apply poolRetrieve_inv
    constructor
    · intro p hp
      exact h2 p hp
    · intro q x hx
      simp only [poolDelayEdge] at hx
      by_cases hqp : q = (G.edgeOf e).pool
      · subst hqp
        rw [if_pos rfl] at hx
        rcases mem_delayedInsert G (s.delayed (G.edgeOf e).pool) e x hx with h4 | h4
        · exact h3 _ x h4
        · rw [h4]
      · rw [if_neg hqp] at hx
        exact h3 q x hx
  · rw [if_neg hd]
    push_neg at hd
    have hsched : poolEdgeScheduled G { s with want := setWant s.want e .toFinish } e
        = { s with want := setWant s.want e .toFinish } := by
      unfold poolEdgeScheduled
      rw [if_neg (by simp [hd])]
    rw [hsched]
    refine ⟨?_, h3⟩
    intro p hp
    have hne : (G.edgeOf e).pool ≠ p := fun hx => hp (hx ▸ hd)
    have ha := sumW_insertSorted_le G p s.readyQ e
    rw [if_neg hne] at ha
    have hb := h2 p hp
    simp only [poolLoad, sumW_append] at hb ⊢
    constructor
    · omega
    · exact hb.2

theorem scheduleWork_pool_inv (G : BuildGraph) (s : PlanState) (e : Nat)
    (h : PoolInv G s) : PoolInv G (scheduleWork G s e) := by
  obtain ⟨h2, h3⟩ := h
  unfold scheduleWork
  cases hv : lookupWant s.want e with
  | some w =>
      cases w with
      | toFinish => exact ⟨h2, h3⟩
      | nothing => exact scheduleWork_pool_core G s e h2 h3
      | toStart => exact scheduleWork_pool_core G s e h2 h3
  | none => exact scheduleWork_pool_core G s e h2 h3

theorem lookupWant_setWant_other {w : List (Nat × Want)} {e x : Nat} (v : Want)
    (h : x ≠ e) : lookupWant (setWant w e v) x = lookupWant w x := by
  induction w with
  | nil => rfl
  | cons kv rest ih =>
      obtain ⟨k, w0⟩ := kv
      simp only [setWant, lookupWant]
      by_cases hk : k = e
      · rw [if_pos hk]
        simp only [lookupWant]
        rw [if_neg (by rw [hk]; exact fun hx => h hx.symm),
          if_neg (by rw [hk]; exact fun hx => h hx.symm)]
      · rw [if_neg hk]
        simp only [lookupWant]
        by_cases hx : k = x
        · rw [if_pos hx, if_pos hx]
        · rw [if_neg hx, if_neg hx]
          exact ih

/-- `Pool::EdgeFinished` keeps the pool invariant when the finished
edge's weight is actually covered by the pool's charge. -/
theorem poolEdgeFinishedOp_inv (G : BuildGraph) (s : PlanState) (e : Nat)
    (h : PoolInv G s)
    (hslack : G.poolDepth (G.edgeOf e).pool ≠ 0 →
      (poolLoad G s (G.edgeOf e).pool : Int) + (G.edgeOf e).weight ≤
        s.currentUse (G.edgeOf e).pool) :
    PoolInv G (poolEdgeFinishedOp G s e) := by
  obtain ⟨h2, h3⟩ := h
  unfold poolEdgeFinishedOp
  by_cases hd : G.poolDepth (G.edgeOf e).pool ≠ 0
  · rw [if_pos hd]
    refine ⟨?_, h3⟩
    intro p hp
    have hb := h2 p hp
    constructor
    · show (poolLoad G s p : Int) ≤
        if p = (G.edgeOf e).pool then s.currentUse p - ((G.edgeOf e).weight : Int)
        else s.currentUse p
      by_cases hpp : p = (G.edgeOf e).pool
      · rw [if_pos hpp, hpp]
        have ha := hslack hd
        rw [hpp] at hb
        omega
      · rw [if_neg hpp]
        exact hb.1
    · show (if p = (G.edgeOf e).pool then s.currentUse p - ((G.edgeOf e).weight : Int)
        else s.currentUse p) ≤ (G.poolDepth p : Int)
      by_cases hpp : p = (G.edgeOf e).pool
      · rw [if_pos hpp, hpp]
        rw [hpp] at hb
        have := hb.2
        omega
      · rw [if_neg hpp]
        exact hb.2
  · rw [if_neg hd]
    exact ⟨h2, h3⟩

/-- `EdgeFinished`/`NodeFinished` preserve the pool invariant.  For the
initial `EdgeFinished` the caller supplies the fact that a directly
wanted edge's weight is still covered by its pool's charge (the builder
guarantees it by finishing only edges it took out of `ready_`); the
recursive calls on unwanted edges release nothing. -/
theorem planStepF_pool (G : BuildGraph) :
    ∀ (fuel : Nat) (s : PlanState) (task : PlanTask),
      PoolInv G s →
      (∀ e success, task = .edgeFinished e success →
        ((lookupWant s.want e).getD .nothing ≠ .nothing) →
        G.poolDepth (G.edgeOf e).pool ≠ 0 →
        (poolLoad G s (G.edgeOf e).pool : Int) + (G.edgeOf e).weight ≤
          s.currentUse (G.edgeOf e).pool) →
      PoolInv G (planStepF G fuel s task) := by
  intro fuel
  induction fuel with
  | zero => intro s task h _; exact h
  | succ fuel ih =>
      intro s task h hsafe
      cases task with
      | edgeFinished e success =>
          simp only [planStepF]
          by_cases hdw : (lookupWant s.want e).getD .nothing ≠ .nothing
          · rw [if_pos hdw]
            have hinv1 : PoolInv G (poolEdgeFinishedOp G s e) :=
              poolEdgeFinishedOp_inv G s e h (hsafe e success rfl hdw)
            have hinv2 := poolRetrieve_inv G _ (G.edgeOf e).pool hinv1
            by_cases hs : success = false
            · rw [if_pos hs]
              exact hinv2
            · rw [if_neg hs]
              refine foldlPreserve ?_ _ _ ?_
              · intro a n ha
                exact ih a (.nodeFinished n) ha (fun e' su hco => by cases hco)
              · exact hinv2
          · rw [if_neg hdw]
            have hinv2 := poolRetrieve_inv G s (G.edgeOf e).pool h
            by_cases hs : success = false
            · rw [if_pos hs]
              exact hinv2
            · rw [if_neg hs]
              refine foldlPreserve ?_ _ _ ?_
              · intro a n ha
                exact ih a (.nodeFinished n) ha (fun e' su hco => by cases hco)
              · exact hinv2
      | nodeFinished n =>
          simp only [planStepF]
          refine foldlPreserve ?_ _ _ h
          intro a oe ha
          cases hlk : lookupWant a.want oe with
          | none => simpa [hlk] using ha
          | some w =>
              simp only [hlk]
              by_cases hr : allInputsReady G a oe = true
              · rw [if_pos hr]
                by_cases hw : w ≠ .nothing
                · rw [if_pos hw]
                  exact scheduleWork_pool_inv G a oe ha
                · rw [if_neg hw]
                  push_neg at hw
                  refine ih a (.edgeFinished oe true) ha ?_
                  intro e' su heq hdw'
                  cases heq
                  rw [hlk] at hdw'
                  simp [hw] at hdw'
              · rw [if_neg hr]
                exact ha

/-- `EdgeFinished`/`NodeFinished` preserve the counter invariant
unconditionally: the erase of the `want_` entry is matched by the
decrement exactly when the erased value was not `kWantNothing`. -/
theorem planStepF_want (G : BuildGraph) :
    ∀ (fuel : Nat) (s : PlanState) (task : PlanTask),
      WantInv s → WantInv (planStepF G fuel s task) := by
  intro fuel
  induction fuel with
  | zero => intro s task h; exact h
  | succ fuel ih =>
      intro s task h
      cases task with
      | edgeFinished e success =>
          simp only [planStepF]
          have hw1 : ∀ s1 : PlanState, s1.want = s.want → s1.wantedEdges = s.wantedEdges →
              WantInv { poolRetrieve G s1 (G.edgeOf e).pool with
                wantedEdges :=
                  if (lookupWant s.want e).getD .nothing ≠ .nothing then
                    (poolRetrieve G s1 (G.edgeOf e).pool).wantedEdges - 1
                  else (poolRetrieve G s1 (G.edgeOf e).pool).wantedEdges,
                want := eraseWant (poolRetrieve G s1 (G.edgeOf e).pool).want e,
                outputsReady := fun x =>
                  if x = e then true else (poolRetrieve G s1 (G.edgeOf e).pool).outputsReady x } := by
            intro s1 hwant hcnt
            unfold WantInv at h ⊢
            simp only [poolRetrieve, hwant, hcnt]
            cases hlk : lookupWant s.want e with
            | none =>
                rw [eraseWant_of_none hlk]
                simp [hlk]
                omega
            | some v =>
                have hcw := countWanted_erase hlk
                by_cases hv : v = Want.nothing
                · subst hv
                  simp only [hlk, Option.getD_some]
                  rw [if_neg (by simp)]
                  simp at hcw
                  omega
                · simp only [hlk, Option.getD_some]
                  rw [if_pos (by simp [hv])]
                  have : (if v ≠ Want.nothing then 1 else 0) = 1 := by simp [hv]
                  omega
          by_cases hdw : (lookupWant s.want e).getD .nothing ≠ .nothing
          · rw [if_pos hdw]
            by_cases hs : success = false
            · rw [if_pos hs]
              unfold WantInv at h ⊢
              simp only [poolRetrieve]
              rw [(poolEdgeFinishedOp_want G s e).1, (poolEdgeFinishedOp_want G s e).2]
              exact h
            · rw [if_neg hs]
              refine foldlPreserve (fun a n ha => ih a (.nodeFinished n) ha) _ _ ?_
              have := hw1 (poolEdgeFinishedOp G s e)
                (poolEdgeFinishedOp_want G s e).1 (poolEdgeFinishedOp_want G s e).2
              simp only [if_pos hdw] at this ⊢
              exact this
          · rw [if_neg hdw]
            by_cases hs : success = false
            · rw [if_pos hs]
              unfold WantInv at h ⊢
              simp only [poolRetrieve]
              exact h
            · rw [if_neg hs]
              refine foldlPreserve (fun a n ha => ih a (.nodeFinished n) ha) _ _ ?_
              have := hw1 s rfl rfl
              simp only [if_neg hdw] at this ⊢
              exact this
      | nodeFinished n =>
          simp only [planStepF]
          refine foldlPreserve ?_ _ _ h
          intro a oe ha
          cases hlk : lookupWant a.want oe with
          | none => simpa [hlk] using ha
          | some w =>
              simp only [hlk]
              by_cases hr : allInputsReady G a oe = true
              · rw [if_pos hr]
                by_cases hw : w ≠ .nothing
                · rw [if_pos hw]
                  refine scheduleWork_want_inv G a oe ?_ ha
                  cases w with
                  | nothing => exact absurd rfl hw
                  | toStart => exact Or.inl hlk
                  | toFinish => exact Or.inr hlk
                · rw [if_neg hw]
                  exact ih a (.edgeFinished oe true) ha
              · rw [if_neg hr]
                exact ha

theorem poolInv_congr (G : BuildGraph) (s t : PlanState)
    (hr : t.readyQ = s.readyQ) (hg : t.running = s.running)
    (hc : t.currentUse = s.currentUse) (hd : t.delayed = s.delayed)
    (h : PoolInv G s) : PoolInv G t := by
  obtain ⟨h2, h3⟩ := h
  constructor
  · intro p hp
    have := h2 p hp
    simpa [poolLoad, hr, hg, hc] using this
  · intro p e he
    rw [hd] at he
    exact h3 p e he

theorem wantInv_congr (s t : PlanState)
    (hw : t.want = s.want) (hc : t.wantedEdges = s.wantedEdges)
    (h : WantInv s) : WantInv t := by
  unfold WantInv at h ⊢
  rw [hw, hc]
  exact h

/-- The builder's `EdgeFinished` call: the edge leaves `running` and the
plan is notified.  The erased running weight provides exactly the slack
that `Pool::EdgeFinished` releases, so the pool invariant survives. -/
theorem edgeFinishedTop_pool (G : BuildGraph) (fuel : Nat) (s : PlanState)
    (e : Nat) (success : Bool) (hrun : e ∈ s.running) (h : PoolInv G s) :
    PoolInv G (planStepF G fuel { s with running := s.running.erase e }
      (.edgeFinished e success)) := by
  obtain ⟨h2, h3⟩ := h
  have herase := sumW_erase_mem G (G.edgeOf e).pool s.running e hrun
  rw [if_pos rfl] at herase
  refine planStepF_pool G fuel _ _ ⟨?_, h3⟩ ?_
  · intro p hp
    have hb := h2 p hp
    have hle := sumW_erase_le G p s.running e
    constructor
    · show (sumW G p (s.readyQ ++ s.running.erase e) : Int) ≤ s.currentUse p
      rw [sumW_append]
      simp only [poolLoad, sumW_append] at hb
      push_cast at hb ⊢
      omega
    · exact hb.2
  · intro e2 su heq _ hdep
    cases heq
    have hb := h2 (G.edgeOf e).pool hdep
    show (sumW G (G.edgeOf e).pool (s.readyQ ++ s.running.erase e) : Int) +
      (G.edgeOf e).weight ≤ s.currentUse (G.edgeOf e).pool
    rw [sumW_append]
    simp only [poolLoad, sumW_append] at hb
    push_cast at hb ⊢
    omega

/-- `AddTarget`/`AddSubTarget` preserve the pool invariant: the only pool
activity is a possible `ScheduleWork`. -/
theorem addSubF_pool (G : BuildGraph) :
    ∀ (fuel : Nat) (s : PlanState) (task : AddTask),
      PoolInv G s → PoolInv G (addSubF G fuel s task).1 := by
  intro fuel
  induction fuel with
  | zero => intro s task h; exact h
  | succ fuel ih =>
      intro s task h
      cases task with
      | node n =>
          cases hin : G.inEdge n with
          | none =>
              simp only [addSubF, hin]
              split <;> exact h
          | some e =>
              simp only [addSubF, hin]
              by_cases hout : s.outputsReady e = true
              · simp only [hout, if_true]
                exact h
              · have hout' : s.outputsReady e = false := by
                  cases hb : s.outputsReady e
                  · rfl
                  · exact absurd hb hout
                simp only [hout', Bool.false_eq_true, if_false]
                by_cases hex : (lookupWant s.want e).isSome = true
                · simp only [hex, if_true]
                  have hsa : PoolInv G { s with want := setWant s.want e Want.toStart, wantedEdges := s.wantedEdges + 1 } :=
                    poolInv_congr G s _ rfl rfl rfl rfl h
                  have hsb : PoolInv G (if allInputsReady G { s with want := setWant s.want e Want.toStart, wantedEdges := s.wantedEdges + 1 } e = true then scheduleWork G { s with want := setWant s.want e Want.toStart, wantedEdges := s.wantedEdges + 1 } e else { s with want := setWant s.want e Want.toStart, wantedEdges := s.wantedEdges + 1 }) := by
                    split
                    · exact scheduleWork_pool_inv G _ e hsa
                    · exact hsa
                  split
                  · split
                    · exact poolInv_congr G _ _ rfl rfl rfl rfl hsb
                    · exact hsb
                  · exact h
                · have hex' : (lookupWant s.want e).isSome = false := by
                    cases hb : (lookupWant s.want e).isSome
                    · rfl
                    · exact absurd hb hex
                  simp only [hex', Bool.false_eq_true, if_false]
                  have hs1 : PoolInv G { s with want := s.want ++ [(e, Want.nothing)] } :=
                    poolInv_congr G s _ rfl rfl rfl rfl h
                  have hsa : PoolInv G { s with want := setWant (s.want ++ [(e, Want.nothing)]) e Want.toStart, wantedEdges := s.wantedEdges + 1 } :=
                    poolInv_congr G s _ rfl rfl rfl rfl h
                  have hsb : PoolInv G (if allInputsReady G { s with want := setWant (s.want ++ [(e, Want.nothing)]) e Want.toStart, wantedEdges := s.wantedEdges + 1 } e = true then scheduleWork G { s with want := setWant (s.want ++ [(e, Want.nothing)]) e Want.toStart, wantedEdges := s.wantedEdges + 1 } e else { s with want := setWant (s.want ++ [(e, Want.nothing)]) e Want.toStart, wantedEdges := s.wantedEdges + 1 }) := by
                    split
                    · exact scheduleWork_pool_inv G _ e hsa
                    · exact hsa
                  refine ih _ (.nodes (G.edgeOf e).inputs) ?_
                  split
                  · split
                    · exact poolInv_congr G _ _ rfl rfl rfl rfl hsb
                    · exact hsb
                  · exact hs1
      | nodes ns =>
          cases ns with
          | nil => exact h
          | cons n rest =>
              simp only [addSubF]
              split
              · exact ih s (.node n) h
              · exact ih _ (.nodes rest) (ih s (.node n) h)

/-- `AddTarget`/`AddSubTarget` preserve the counter invariant: the
promotion of a `kWantNothing` entry to `kWantToStart` is matched by the
`++wanted_edges_`. -/
theorem addSubF_want (G : BuildGraph) :
    ∀ (fuel : Nat) (s : PlanState) (task : AddTask),
      WantInv s → WantInv (addSubF G fuel s task).1 := by
  intro fuel
  induction fuel with
  | zero => intro s task h; exact h
  | succ fuel ih =>
      intro s task h
      cases task with
      | node n =>
          cases hin : G.inEdge n with
          | none =>
              simp only [addSubF, hin]
              split <;> exact h
          | some e =>
              simp only [addSubF, hin]
              by_cases hout : s.outputsReady e = true
              · simp only [hout, if_true]
                exact h
              · have hout' : s.outputsReady e = false := by
                  cases hb : s.outputsReady e
                  · rfl
                  · exact absurd hb hout
                simp only [hout', Bool.false_eq_true, if_false]
                by_cases hex : (lookupWant s.want e).isSome = true
                · simp only [hex, if_true]
                  obtain ⟨v, hlk⟩ := Option.isSome_iff_exists.mp hex
                  split
                  · rename_i hguard
                    have hv : v = Want.nothing := by
                      have hb := ((Bool.and_eq_true _ _).mp hguard).2
                      rw [hlk] at hb
                      simpa using hb
                    rw [hv] at hlk
                    have hsa : WantInv { s with want := setWant s.want e Want.toStart, wantedEdges := s.wantedEdges + 1 } := by
                      unfold WantInv at h ⊢
                      have hc := countWanted_setWant (v := Want.toStart) hlk
                      simp at hc
                      show s.wantedEdges + 1 = (countWanted (setWant s.want e Want.toStart) : Int)
                      omega
                    have hlk2 : lookupWant (setWant s.want e Want.toStart) e = some Want.toStart :=
                      lookupWant_setWant_self Want.toStart hlk
                    have hsb : WantInv (if allInputsReady G { s with want := setWant s.want e Want.toStart, wantedEdges := s.wantedEdges + 1 } e = true then scheduleWork G { s with want := setWant s.want e Want.toStart, wantedEdges := s.wantedEdges + 1 } e else { s with want := setWant s.want e Want.toStart, wantedEdges := s.wantedEdges + 1 }) := by
                      split
                      · exact scheduleWork_want_inv G _ e (Or.inl hlk2) hsa
                      · exact hsa
                    split
                    · exact wantInv_congr _ _ rfl rfl hsb
                    · exact hsb
                  · exact h
                · have hex' : (lookupWant s.want e).isSome = false := by
                    cases hb : (lookupWant s.want e).isSome
                    · rfl
                    · exact absurd hb hex
                  have hnone : lookupWant s.want e = none := by
                    cases hn : lookupWant s.want e with
                    | none => rfl
                    | some v => rw [hn] at hex'; simp at hex'
                  simp only [hex', Bool.false_eq_true, if_false]
                  have hs1 : WantInv { s with want := s.want ++ [(e, Want.nothing)] } := by
                    unfold WantInv at h ⊢
                    show s.wantedEdges = (countWanted (s.want ++ [(e, Want.nothing)]) : Int)
                    rw [countWanted_append_nothing]
                    exact h
                  have hlk1 : lookupWant (s.want ++ [(e, Want.nothing)]) e = some Want.nothing :=
                    lookupWant_append_none Want.nothing hnone
                  refine ih _ (.nodes (G.edgeOf e).inputs) ?_
                  split
                  · have hsa : WantInv { s with want := setWant (s.want ++ [(e, Want.nothing)]) e Want.toStart, wantedEdges := s.wantedEdges + 1 } := by
                      unfold WantInv at h ⊢
                      have hc := countWanted_setWant (v := Want.toStart) hlk1
                      simp at hc
                      rw [countWanted_append_nothing] at hc
                      show s.wantedEdges + 1 =
                        (countWanted (setWant (s.want ++ [(e, Want.nothing)]) e Want.toStart) : Int)
                      omega
                    have hlk2 : lookupWant (setWant (s.want ++ [(e, Want.nothing)]) e Want.toStart) e = some Want.toStart :=
                      lookupWant_setWant_self Want.toStart hlk1
                    have hsb : WantInv (if allInputsReady G { s with want := setWant (s.want ++ [(e, Want.nothing)]) e Want.toStart, wantedEdges := s.wantedEdges + 1 } e = true then scheduleWork G { s with want := setWant (s.want ++ [(e, Want.nothing)]) e Want.toStart, wantedEdges := s.wantedEdges + 1 } e else { s with want := setWant (s.want ++ [(e, Want.nothing)]) e Want.toStart, wantedEdges := s.wantedEdges + 1 }) := by
                      split
                      · exact scheduleWork_want_inv G _ e (Or.inl hlk2) hsa
                      · exact hsa
                    split
                    · exact wantInv_congr _ _ rfl rfl hsb
                    · exact hsb
                  · exact hs1
      | nodes ns =>
          cases ns with
          | nil => exact h
          | cons n rest =>
              simp only [addSubF]
              split
              · exact ih s (.node n) h
              · exact ih _ (.nodes rest) (ih s (.node n) h)

/-- `CleanNode` never touches the scheduling fields: only `want_`,
`wanted_edges_`, `command_edges_` and dirty bits change. -/
theorem cleanNodeF_pool_fields (G : BuildGraph) (oracle : Nat → Option Nat → Option Bool) :
    ∀ (fuel : Nat) (s : PlanState) (task : CleanTask),
      (cleanNodeF G oracle fuel s task).1.readyQ = s.readyQ ∧
      (cleanNodeF G oracle fuel s task).1.running = s.running ∧
      (cleanNodeF G oracle fuel s task).1.currentUse = s.currentUse ∧
      (cleanNodeF G oracle fuel s task).1.delayed = s.delayed := by
  intro fuel
  induction fuel with
  | zero => intro s task; exact ⟨rfl, rfl, rfl, rfl⟩
  | succ fuel ih =>
      intro s task
      cases task with
      | node n =>
          simp only [cleanNodeF]
          exact ih _ (.edges (G.outEdges n))
      | edges es =>
          cases es with
          | nil => exact ⟨rfl, rfl, rfl, rfl⟩
          | cons oe rest =>
              simp only [cleanNodeF]
              split
              · exact ih s (.edges rest)
              · split
                · exact ih s (.edges rest)
                · split
                  · exact ih s (.edges rest)
                  · split
                    · split
                      · exact ⟨rfl, rfl, rfl, rfl⟩
                      · split
                        · split
                          · exact ih s (.outs (G.edgeOf oe).outputs)
                          · split
                            · obtain ⟨a1, a2, a3, a4⟩ := ih s (.outs (G.edgeOf oe).outputs)
                              obtain ⟨b1, b2, b3, b4⟩ := ih _ (.edges rest)
                              exact ⟨b1.trans a1, b2.trans a2, b3.trans a3, b4.trans a4⟩
                            · obtain ⟨a1, a2, a3, a4⟩ := ih s (.outs (G.edgeOf oe).outputs)
                              obtain ⟨b1, b2, b3, b4⟩ := ih _ (.edges rest)
                              exact ⟨b1.trans a1, b2.trans a2, b3.trans a3, b4.trans a4⟩
                        · exact ih s (.edges rest)
                    · exact ih s (.edges rest)
      | outs os =>
          cases os with
          | nil => exact ⟨rfl, rfl, rfl, rfl⟩
          | cons o rest =>
              simp only [cleanNodeF]
              split
              · exact ih s (.node o)
              · obtain ⟨a1, a2, a3, a4⟩ := ih s (.node o)
                obtain ⟨b1, b2, b3, b4⟩ := ih _ (.outs rest)
                exact ⟨b1.trans a1, b2.trans a2, b3.trans a3, b4.trans a4⟩

theorem cleanNodeF_pool (G : BuildGraph) (oracle : Nat → Option Nat → Option Bool)
    (fuel : Nat) (s : PlanState) (task : CleanTask) (h : PoolInv G s) :
    PoolInv G (cleanNodeF G oracle fuel s task).1 := by
  obtain ⟨a1, a2, a3, a4⟩ := cleanNodeF_pool_fields G oracle fuel s task
  exact poolInv_congr G s _ a1 a2 a3 a4 h

theorem wantInv_demote {s : PlanState} (oe : Nat) {w : Want} (hw : ¬(w = Want.nothing))
    (hlk : lookupWant s.want oe = some w) (h : WantInv s) :
    WantInv { s with want := setWant s.want oe Want.nothing,
                     wantedEdges := s.wantedEdges - 1 } := by
  unfold WantInv at h ⊢
  have hc := countWanted_setWant (v := Want.nothing) hlk
  simp [hw] at hc
  show s.wantedEdges - 1 = (countWanted (setWant s.want oe Want.nothing) : Int)
  omega

/-- One step of the static descent structure of `CleanNode`: from an
edge to the edges consuming one of its outputs (each level of the
recursion moves from an edge through `outputs_` and `out_edges()` to the
next edge). -/
def edgeSucc (G : BuildGraph) (f h : Nat) : Prop :=
  ∃ A ∈ (G.edgeOf f).outputs, h ∈ G.outEdges A

/-- Static footprint of a `CleanNode` task: an over-approximation of the
edges whose `want_` entry the recursion can touch, following the
`.node`/`.edges`/`.outs` shape of the source. -/
inductive CReach (G : BuildGraph) : CleanTask → Nat → Prop where
  | hd (oe : Nat) (rest : List Nat) : CReach G (.edges (oe :: rest)) oe
  | skip (oe : Nat) (rest : List Nat) (h : Nat) :
      CReach G (.edges rest) h → CReach G (.edges (oe :: rest)) h
  | descend (oe : Nat) (rest : List Nat) (h : Nat) :
      CReach G (.outs (G.edgeOf oe).outputs) h → CReach G (.edges (oe :: rest)) h
  | node (n h : Nat) : CReach G (.edges (G.outEdges n)) h → CReach G (.node n) h
  | outsHd (o : Nat) (rest : List Nat) (h : Nat) :
      CReach G (.node o) h → CReach G (.outs (o :: rest)) h
  | outsTl (o : Nat) (rest : List Nat) (h : Nat) :
      CReach G (.outs rest) h → CReach G (.outs (o :: rest)) h

/-- Footprint soundness: a `want_` entry changed by `CleanNode` lies in
the static footprint of its task. -/
theorem cleanNodeF_foot (G : BuildGraph) (oracle : Nat → Option Nat → Option Bool) :
    ∀ (fuel : Nat) (s : PlanState) (task : CleanTask) (h : Nat),
      lookupWant (cleanNodeF G oracle fuel s task).1.want h ≠ lookupWant s.want h →
      CReach G task h := by
  intro fuel
  induction fuel with
  | zero => intro s task h hne; exact absurd rfl hne
  | succ fuel ih =>
      intro s task h hne
      cases task with
      | node n =>
          simp only [cleanNodeF] at hne
          exact .node n h (ih _ (.edges (G.outEdges n)) h hne)
      | edges es =>
          cases es with
          | nil => exact absurd rfl hne
          | cons oe rest =>
              simp only [cleanNodeF] at hne
              split at hne
              · exact .skip oe rest h (ih s (.edges rest) h hne)
              · split at hne
                · exact .skip oe rest h (ih s (.edges rest) h hne)
                · split at hne
                  · exact .skip oe rest h (ih s (.edges rest) h hne)
                  · split at hne
                    · split at hne
                      · exact absurd rfl hne
                      · split at hne
                        · split at hne
                          · exact .descend oe rest h (ih s (.outs _) h hne)
                          · by_cases hh : h = oe
                            · subst hh
                              exact .hd h rest
                            · by_cases hr : lookupWant
                                  (cleanNodeF G oracle fuel s (.outs (G.edgeOf oe).outputs)).1.want h ≠
                                  lookupWant s.want h
                              · exact .descend oe rest h (ih s (.outs _) h hr)
                              · push_neg at hr
                                have h3 : lookupWant (setWant
                                    (cleanNodeF G oracle fuel s (.outs (G.edgeOf oe).outputs)).1.want
                                    oe Want.nothing) h = lookupWant s.want h := by
                                  rw [lookupWant_setWant_other _ hh]
                                  exact hr
                                split at hne
                                · exact .skip oe rest h
                                    (ih _ (.edges rest) h (fun hXY => hne (hXY.trans h3)))
                                · exact .skip oe rest h
                                    (ih _ (.edges rest) h (fun hXY => hne (hXY.trans h3)))
                        · exact .skip oe rest h (ih s (.edges rest) h hne)
                    · exact .skip oe rest h (ih s (.edges rest) h hne)
      | outs os =>
          cases os with
          | nil => exact absurd rfl hne
          | cons o rest =>
              simp only [cleanNodeF] at hne
              split at hne
              · exact .outsHd o rest h (ih s (.node o) h hne)
              · by_cases hr : lookupWant (cleanNodeF G oracle fuel s (.node o)).1.want h ≠
                    lookupWant s.want h
                · exact .outsHd o rest h (ih s (.node o) h hr)
                · push_neg at hr
                  exact .outsTl o rest h (ih _ (.outs rest) h (fun hXY => hne (hXY.trans hr)))

/-- The anchoring of an intermediate `CleanNode` task below the edge `x`
whose outputs are being cleaned. -/
def AnchorP (G : BuildGraph) (x : Nat) : CleanTask → Prop
  | .outs os => ∀ A ∈ os, A ∈ (G.edgeOf x).outputs
  | .node A => A ∈ (G.edgeOf x).outputs
  | .edges es => ∃ A, A ∈ (G.edgeOf x).outputs ∧ ∀ f ∈ es, f ∈ G.outEdges A

/-- A footprint membership below an anchored task yields a chain of
`edgeSucc` steps from the anchor. -/
theorem creach_chain (G : BuildGraph) :
    ∀ {task : CleanTask} {h : Nat}, CReach G task h →
      ∀ x : Nat, AnchorP G x task → Relation.TransGen (edgeSucc G) x h := by
  intro task h hcr
  induction hcr with
  | hd oe rest =>
      intro x hx
      obtain ⟨A, hA, hall⟩ := hx
      exact Relation.TransGen.single ⟨A, hA, hall oe (List.mem_cons_self _ _)⟩
  | skip oe rest h2 hcr2 ih =>
      intro x hx
      obtain ⟨A, hA, hall⟩ := hx
      exact ih x ⟨A, hA, fun f hf => hall f (List.mem_cons_of_mem _ hf)⟩
  | descend oe rest h2 hcr2 ih =>
      intro x hx
      obtain ⟨A, hA, hall⟩ := hx
      exact Relation.TransGen.head ⟨A, hA, hall oe (List.mem_cons_self _ _)⟩
        (ih oe (fun B hB => hB))
  | node n h2 hcr2 ih =>
      intro x hx
      exact ih x ⟨n, hx, fun f hf => hf⟩
  | outsHd o rest h2 hcr2 ih =>
      intro x hx
      exact ih x (hx o (List.mem_cons_self _ _))
  | outsTl o rest h2 hcr2 ih =>
      intro x hx
      exact ih x (fun A hA => hx A (List.mem_cons_of_mem _ hA))

theorem acc_no_self {α : Type} {q : α → α → Prop} :
    ∀ a : α, Acc q a → ¬ q a a := by
  intro a h
  induction h with
  | intro x hx ih =>
      intro hxx
      exact ih x hxx hxx

/-- On a well-founded graph no edge chains back to itself. -/
theorem edgeSucc_no_loop (G : BuildGraph)
    (hacy : WellFounded (fun a b => edgeSucc G b a)) (x : Nat) :
    ¬ Relation.TransGen (edgeSucc G) x x := by
  intro hloop
  have h1 : Relation.TransGen (fun a b => edgeSucc G b a) x x :=
    Relation.transGen_swap.mpr hloop
  exact acc_no_self x (hacy.transGen.apply x) h1

/-- On a well-founded build graph — the output-to-consumer relation
between edges admits no infinite chain, which is exactly the condition
under which the `CleanNode` recursion returns — `CleanNode` preserves
the counter invariant: each demotion of a `want_` entry to
`kWantNothing` pairs with one `--wanted_edges_`, and the recursive
cleaning of the edge's outputs cannot have already demoted that same
edge, since by footprint soundness that would exhibit an `edgeSucc`
cycle through the edge. -/
theorem cleanNodeF_want (G : BuildGraph)
    (oracle : Nat → Option Nat → Option Bool)
    (hacy : WellFounded (fun a b => edgeSucc G b a)) :
    ∀ (fuel : Nat) (s : PlanState) (task : CleanTask),
      WantInv s → WantInv (cleanNodeF G oracle fuel s task).1 := by
  intro fuel
  induction fuel with
  | zero => intro s task h; exact h
  | succ fuel ih =>
      intro s task h
      cases task with
      | node n =>
          simp only [cleanNodeF]
          exact ih _ (.edges (G.outEdges n)) h
      | edges es =>
          cases es with
          | nil => exact h
          | cons oe rest =>
              simp only [cleanNodeF]
              split
              · exact ih s (.edges rest) h
              · rename_i w heq
                split
                · exact ih s (.edges rest) h
                · rename_i hwn
                  split
                  · exact ih s (.edges rest) h
                  · split
                    · split
                      · exact h
                      · split
                        · split
                          · exact ih s (.outs (G.edgeOf oe).outputs) h
                          · have hpres : lookupWant
                                (cleanNodeF G oracle fuel s (.outs (G.edgeOf oe).outputs)).1.want oe =
                                lookupWant s.want oe := by
                              by_contra hne
                              exact edgeSucc_no_loop G hacy oe
                                (creach_chain G (cleanNodeF_foot G oracle fuel s _ oe hne) oe
                                  (fun A hA => hA))
                            have hr1 : WantInv
                                (cleanNodeF G oracle fuel s (.outs (G.edgeOf oe).outputs)).1 :=
                              ih s (.outs (G.edgeOf oe).outputs) h
                            rw [heq] at hpres
                            have hs2 := wantInv_demote oe hwn hpres hr1
                            split
                            · exact ih _ (.edges rest) (wantInv_congr _ _ rfl rfl hs2)
                            · exact ih _ (.edges rest) hs2
                        · exact ih s (.edges rest) h
                    · exact ih s (.edges rest) h
      | outs os =>
          cases os with
          | nil => exact h
          | cons o rest =>
              simp only [cleanNodeF]
              split
              · exact ih s (.node o) h
              · exact ih _ (.outs rest) (ih s (.node o) h)

theorem findWorkOp_want (s : PlanState) :
    (findWorkOp s).want = s.want ∧ (findWorkOp s).wantedEdges = s.wantedEdges := by
  unfold findWorkOp
  split <;> exact ⟨rfl, rfl⟩

/-- Every reachable plan state satisfies the pool invariant. -/
theorem planReach_poolInv (G : BuildGraph) {s : PlanState} (h : PlanReach G s) :
    PoolInv G s := by
  induction h with
  | init d oready =>
      constructor
      · intro p hp
        constructor
        · show ((sumW G p ([] ++ [])) : Int) ≤ (0 : Int)
          simp [sumW]
        · show (0 : Int) ≤ (G.poolDepth p : Int)
          positivity
      · intro p e he
        cases he
  | addTarget fuel n hprev ih => exact addSubF_pool G fuel _ (.node n) ih
  | findWork hprev ih => exact findWorkOp_inv G _ ih
  | schedule e hlk hprev ih => exact scheduleWork_pool_inv G _ e ih
  | edgeFinished fuel e success hrun hprev ih =>
      exact edgeFinishedTop_pool G fuel _ e success hrun ih
  | cleanNode fuel oracle n hprev ih => exact cleanNodeF_pool G oracle fuel _ (.node n) ih

/-- On a well-founded build graph every reachable plan state satisfies
the counter invariant. -/
theorem planReach_wantInv (G : BuildGraph)
    (hacy : WellFounded (fun a b => edgeSucc G b a))
    {s : PlanState} (h : PlanReach G s) : WantInv s := by
  induction h with
  | init d oready =>
      show (0 : Int) = ((countWanted []) : Int)
      rfl
  | addTarget fuel n hprev ih => exact addSubF_want G fuel _ (.node n) ih
  | findWork hprev ih =>
      exact wantInv_congr _ _ (findWorkOp_want _).1 (findWorkOp_want _).2 ih
  | schedule e hlk hprev ih => exact scheduleWork_want_inv G _ e hlk ih
  | edgeFinished fuel e success hrun hprev ih =>
      exact planStepF_want G fuel _ _ (wantInv_congr _ _ rfl rfl ih)
  | cleanNode fuel oracle n hprev ih =>
      exact cleanNodeF_want G oracle hacy fuel _ (.node n) ih

/-- A one-edge graph whose edge sits in pool 1 of depth 1. -/
def demoPoolG : BuildGraph where
  edgeOf := fun _ => { pool := 1, weight := 1, phony := true, inputs := [],
                       orderOnly := 0, outputs := [0], depsMissing := false }
  inEdge := fun n => if n = 0 then some 0 else none
  outEdges := fun _ => []
  poolDepth := fun p => if p = 1 then 1 else 0
  mtimeOf := fun _ => 0

/-- The plan state after `Plan::Reset` with node 0 dirty. -/
def planInit0 : PlanState :=
  { want := [], readyQ := [], running := [], wantedEdges := 0, commandEdges := 0,
    currentUse := fun _ => 0, delayed := fun _ => [], outputsReady := fun _ => false,
    dirtyN := fun _ => true }

/-- C4: pool depth is never exceeded.  In every plan state reachable by
any interleaving of `AddTarget`, `FindWork`, `ScheduleWork`,
`EdgeFinished` and `CleanNode`, the total weight of the edges currently
scheduled (in `ready_`) or running in a pool of non-zero depth is at
most that pool's depth. -/
theorem pool_depth_never_exceeded (G : BuildGraph) {s : PlanState}
    (h : PlanReach G s) (p : Nat) (hp : G.poolDepth p ≠ 0) :
    poolLoad G s p ≤ G.poolDepth p := by
  have hi := planReach_poolInv G h
  have h2 := (hi.1 p hp).1.trans (hi.1 p hp).2
  exact_mod_cast h2

theorem pool_depth_never_exceeded_witness :
    demoPoolG.poolDepth 1 ≠ 0 ∧
    poolLoad demoPoolG (addSubF demoPoolG 3 planInit0 (.node 0)).1 1 ≤
      demoPoolG.poolDepth 1 :=
  ⟨by decide,
    pool_depth_never_exceeded demoPoolG
      (PlanReach.addTarget 3 0 (PlanReach.init (fun _ => true) (fun _ => false)))
      1 (by decide)⟩

/-- C9: plan conservation.  In every plan state reachable by any
sequence of `AddTarget`, `FindWork`, `ScheduleWork`, `EdgeFinished` and
`CleanNode` calls, `wanted_edges_` equals the number of `want_` entries
whose value is not `kWantNothing`.  The hypothesis is the
well-foundedness of the static output-to-consumer relation between
edges — the canonical acyclicity of the build graph.  It is exactly the
condition under which the `CleanNode` recursion returns (on a
dependency cycle the recursion re-enters the same edge under identical
checks and never reaches its demotion), and it holds for every graph
the dirty scan admits to planning. -/
theorem plan_conservation (G : BuildGraph)
    (hacy : WellFounded (fun a b => edgeSucc G b a))
    {s : PlanState} (h : PlanReach G s) :
    s.wantedEdges = (countWanted s.want : Int) :=
  planReach_wantInv G hacy h

theorem plan_conservation_witness :
    (addSubF demoPoolG 3 planInit0 (.node 0)).1.wantedEdges =
      (countWanted (addSubF demoPoolG 3 planInit0 (.node 0)).1.want : Int) :=
  plan_conservation demoPoolG
    ⟨fun a => Acc.intro a (fun y hy => by
      obtain ⟨A, _, hm⟩ := hy
      simp [demoPoolG] at hm)⟩
    (PlanReach.addTarget 3 0 (PlanReach.init (fun _ => true) (fun _ => false)))

/-- The spec's words for the delayed-set order: "weighted edges preferred
(larger weight first); ties broken by pointer identity". -/
def weightedEdgeCmpSpec (G : BuildGraph) (a b : Nat) : Bool :=
  ((G.edgeOf b).weight < (G.edgeOf a).weight) ||
    ((G.edgeOf a).weight = (G.edgeOf b).weight && a < b)

/-- Insertion into a delayed set kept in the spec's claimed order. -/
def delayedInsertSpec (G : BuildGraph) (l : List Nat) (e : Nat) : List Nat :=
  match l with
  | [] => [e]
  | x :: rest =>
      if weightedEdgeCmpSpec G e x then e :: x :: rest
      else if e = x then x :: rest
      else x :: delayedInsertSpec G rest e

/-- Edge `e` has weight `e`; pool 1 has depth 2. -/
def cmpDemoG : BuildGraph where
  edgeOf := fun e => { pool := 1, weight := e, phony := true, inputs := [],
                       orderOnly := 0, outputs := [], depsMissing := false }
  inEdge := fun _ => none
  outEdges := fun _ => []
  poolDepth := fun p => if p = 1 then 2 else 0
  mtimeOf := fun _ => 0

theorem weightedEdgeCmp_trans (G : BuildGraph) (a b c : Nat)
    (h1 : weightedEdgeCmp G a b = true) (h2 : weightedEdgeCmp G b c = true) :
    weightedEdgeCmp G a c = true := by
  unfold weightedEdgeCmp at h1 h2 ⊢
  simp only [Bool.or_eq_true, Bool.and_eq_true, decide_eq_true_eq] at h1 h2 ⊢
  omega

theorem weightedEdgeCmp_total (G : BuildGraph) (a b : Nat) (hne : ¬(a = b))
    (h : weightedEdgeCmp G a b = false) : weightedEdgeCmp G b a = true := by
  unfold weightedEdgeCmp at h ⊢
  simp only [Bool.or_eq_false_iff, Bool.and_eq_false_iff, Bool.or_eq_true,
    Bool.and_eq_true, decide_eq_true_eq, decide_eq_false_iff_not] at h ⊢
  omega

theorem delayedInsert_sorted (G : BuildGraph) :
    ∀ (l : List Nat) (e : Nat),
      l.Pairwise (fun a b => weightedEdgeCmp G a b = true) →
      (delayedInsert G l e).Pairwise (fun a b => weightedEdgeCmp G a b = true) := by
  intro l
  induction l with
  | nil =>
      intro e _
      simp [delayedInsert]
  | cons x rest ih =>
      intro e h
      rw [List.pairwise_cons] at h
      obtain ⟨hx, hrest⟩ := h
      simp only [delayedInsert]
      by_cases h1 : weightedEdgeCmp G e x = true
      · rw [if_pos h1]
        rw [List.pairwise_cons]
        constructor
        · intro y hy
          rcases List.mem_cons.mp hy with h2 | h2
          · rw [h2]
            exact h1
          · exact weightedEdgeCmp_trans G e x y h1 (hx y h2)
        · rw [List.pairwise_cons]
          exact ⟨hx, hrest⟩
      · rw [if_neg h1]
        by_cases h2 : e = x
        · rw [if_pos h2]
          rw [List.pairwise_cons]
          exact ⟨hx, hrest⟩
        · rw [if_neg h2]
          rw [List.pairwise_cons]
          constructor
          · intro y hy
            rcases mem_delayedInsert G rest e y hy with h3 | h3
            · exact hx y h3
            · rw [h3]
              exact weightedEdgeCmp_total G e x h2 (by
                cases hb : weightedEdgeCmp G e x
                · rfl
                · exact absurd hb h1)
          · exact ih e hrest

/-- The `Pool::RetrieveReadyEdges` loop is capacity-greedy: it admits
exactly a prefix of the delayed set, every admitted edge fit at its
turn, and the loop stops at the first edge that would not fit. -/
theorem retrieveLoop_greedy (G : BuildGraph) (depth : Nat) (hd : depth ≠ 0) :
    ∀ (l : List Nat) (use : Int),
      ∃ k, (retrieveLoop G depth use l).1 = l.take k ∧
        (retrieveLoop G depth use l).2.2 = l.drop k ∧
        (∀ j, j < k → ∀ hj : j < l.length,
          use + (sumWts G (l.take j) : Int) + ((G.edgeOf (l.get ⟨j, hj⟩)).weight : Int) ≤
            (depth : Int)) ∧
        (∀ hk : k < l.length,
          use + (sumWts G (l.take k) : Int) + ((G.edgeOf (l.get ⟨k, hk⟩)).weight : Int) >
            (depth : Int)) := by
  intro l
  induction l with
  | nil =>
      intro use
      refine ⟨0, rfl, rfl, ?_, ?_⟩
      · intro j hj hj2
        exact absurd hj2 (by simp)
      · intro hk
        exact absurd hk (by simp)
  | cons e rest ih =>
      intro use
      simp only [retrieveLoop]
      by_cases h : use + (G.edgeOf e).weight > (depth : Int)
      · refine ⟨0, by simp [if_pos h], by simp [if_pos h], ?_, ?_⟩
        · intro j hj _
          omega
        · intro hk
          simpa [sumWts] using h
      · obtain ⟨k, ha, hb, hc, hdk⟩ := ih (use + (G.edgeOf e).weight)
        refine ⟨k + 1, ?_, ?_, ?_, ?_⟩
        · rw [if_neg h]
          simp only [if_pos hd, List.take_succ_cons, List.cons.injEq, true_and]
          exact ha
        · rw [if_neg h]
          simp only [if_pos hd, List.drop_succ_cons]
          exact hb
        · intro j hj hj2
          cases j with
          | zero =>
              simp only [List.take_zero, sumWts, List.get]
              push_cast
              omega
          | succ j =>
              have hj3 : j < rest.length := by
                simpa using hj2
              have := hc j (by omega) hj3
              simp only [List.take_succ_cons, sumWts, List.get]
              push_cast at this ⊢
              omega
        · intro hk
          have hk2 : k < rest.length := by
            simpa using hk
          have := hdk hk2
          simp only [List.take_succ_cons, sumWts, List.get]
          push_cast at this ⊢
          omega

/-- C5 original is refuted on the ordering clause: `WeightedEdgeCmp`
puts the SMALLER weight first (`weight_diff < 0`), not the larger.  With
edges 1 (weight 1) and 2 (weight 2) delayed in a pool of depth 2, the
source admits edge 1; under the spec's larger-weight-first order edge 2
would be admitted. -/
theorem pool_admission_order_cex :
    weightedEdgeCmp cmpDemoG 1 2 = true ∧
    weightedEdgeCmpSpec cmpDemoG 1 2 = false ∧
    (retrieveLoop cmpDemoG 2 0
      (delayedInsert cmpDemoG (delayedInsert cmpDemoG [] 1) 2)).1 = [1] ∧
    (retrieveLoop cmpDemoG 2 0
      (delayedInsertSpec cmpDemoG (delayedInsertSpec cmpDemoG [] 1) 2)).1 = [2] := by
  decide

/-- C5 (amended): `Pool::RetrieveReadyEdges` admits a capacity-greedy
prefix of the delayed set — every admitted edge fit when charged and the
loop stops at the first edge that would push `current_use_` above the
depth — and the delayed set is kept ordered by `WeightedEdgeCmp`, which
prefers SMALLER weights first and breaks ties by pointer identity. -/
theorem pool_admission_order (G : BuildGraph) (depth : Nat) (hd : depth ≠ 0)
    (l : List Nat) (use : Int) (e : Nat)
    (hsort : l.Pairwise fun a b => weightedEdgeCmp G a b = true) :
    (∃ k, (retrieveLoop G depth use l).1 = l.take k ∧
      (retrieveLoop G depth use l).2.2 = l.drop k ∧
      (∀ j, j < k → ∀ hj : j < l.length,
        use + (sumWts G (l.take j) : Int) + ((G.edgeOf (l.get ⟨j, hj⟩)).weight : Int) ≤
          (depth : Int)) ∧
      (∀ hk : k < l.length,
        use + (sumWts G (l.take k) : Int) + ((G.edgeOf (l.get ⟨k, hk⟩)).weight : Int) >
          (depth : Int))) ∧
    ((delayedInsert G l e).Pairwise fun a b => weightedEdgeCmp G a b = true) ∧
    (∀ a b, weightedEdgeCmp G a b = true ↔
      ((G.edgeOf a).weight < (G.edgeOf b).weight ∨
        ((G.edgeOf a).weight = (G.edgeOf b).weight ∧ a < b))) := by
  refine ⟨retrieveLoop_greedy G depth hd l use, delayedInsert_sorted G l e hsort, ?_⟩
  intro a b
  unfold weightedEdgeCmp
  simp [Bool.or_eq_true, Bool.and_eq_true, decide_eq_true_eq]

theorem pool_admission_order_witness :
    (2 : Nat) ≠ 0 ∧
    ([1, 2] : List Nat).Pairwise (fun a b => weightedEdgeCmp cmpDemoG a b = true) ∧
    ((∃ k, (retrieveLoop cmpDemoG 2 0 [1, 2]).1 = ([1, 2] : List Nat).take k ∧
      (retrieveLoop cmpDemoG 2 0 [1, 2]).2.2 = ([1, 2] : List Nat).drop k ∧
      (∀ j, j < k → ∀ hj : j < ([1, 2] : List Nat).length,
        0 + (sumWts cmpDemoG (([1, 2] : List Nat).take j) : Int) +
          ((cmpDemoG.edgeOf (([1, 2] : List Nat).get ⟨j, hj⟩)).weight : Int) ≤ (2 : Int)) ∧
      (∀ hk : k < ([1, 2] : List Nat).length,
        0 + (sumWts cmpDemoG (([1, 2] : List Nat).take k) : Int) +
          ((cmpDemoG.edgeOf (([1, 2] : List Nat).get ⟨k, hk⟩)).weight : Int) > (2 : Int))) ∧
    ((delayedInsert cmpDemoG [1, 2] 3).Pairwise
      fun a b => weightedEdgeCmp cmpDemoG a b = true) ∧
    (∀ a b, weightedEdgeCmp cmpDemoG a b = true ↔
      ((cmpDemoG.edgeOf a).weight < (cmpDemoG.edgeOf b).weight ∨
        ((cmpDemoG.edgeOf a).weight = (cmpDemoG.edgeOf b).weight ∧ a < b)))) :=
  ⟨by decide, by decide,
    pool_admission_order cmpDemoG 2 (by decide) [1, 2] 0 3 (by decide)⟩

/-! ### The manifest lexer (src/src/lexer.cc)

The lexer works over a byte buffer with a terminating NUL; positions are
offsets into the buffer, and reading past the end yields the NUL
sentinel (`Load` appends one).  The re2c character classes are
transcribed from the generated tables. -/

def charNul : Char := Char.ofNat 0

/-- Read the byte at offset `i`; past the end this is the NUL sentinel. -/
def charAt (s : List Char) (i : Nat) : Char := s.getD i charNul

/-- The half-open slice `[a, b)` of the buffer. -/
def sliceCh (s : List Char) (a b : Nat) : List Char := (s.drop a).take (b - a)

/-- First offset at or after `i` whose byte fails `f` (fuelled; the NUL
sentinel fails every class used below, so `s.length + 1` fuel always
suffices). -/
def runWhile (f : Char → Bool) (s : List Char) : Nat → Nat → Nat
  | 0, i => i
  | fuel + 1, i => if f (charAt s i) then runWhile f s fuel (i + 1) else i

/-- `ReadToken`/`ReadIdent` identifier class `[a-zA-Z0-9_.-]`. -/
def isIdentCh (c : Char) : Bool := c.isAlphanum || c = '_' || c = '.' || c = '-'

/-- `$var` simple-variable class `[a-zA-Z0-9_-]`. -/
def isSimpleVarCh (c : Char) : Bool := c.isAlphanum || c = '_' || c = '-'

/-- `ReadEvalString` literal-run class: everything except NUL, newline,
carriage return, space, `$`, `:` and `|`. -/
def isEvalLit (c : Char) : Bool :=
  !(c = charNul || c = '\n' || c = '\r' || c = ' ' || c = '$' || c = ':' || c = '|')

/-- Comment body class: everything except NUL and newline. -/
def isCommentCh (c : Char) : Bool := !(c = charNul || c = '\n')

/-- `Lexer::Token`. -/
inductive Token where
  | teof | tnewline | tbuild | trule | tpool | tdefault | tinclude | tsubninja
  | tindent | tident | tcolon | tequals | tpipe | tpipe2 | terror
deriving DecidableEq, Repr

/-- Keyword recognition at the end of an identifier run (the DFA accepts
`build`/`rule`/`pool`/`default`/`include`/`subninja` exactly when the
run equals the keyword). -/
def keywordTok (w : List Char) : Token :=
  if w = "build".toList then .tbuild
  else if w = "rule".toList then .trule
  else if w = "pool".toList then .tpool
  else if w = "default".toList then .tdefault
  else if w = "include".toList then .tinclude
  else if w = "subninja".toList then .tsubninja
  else .tident

/-- The lexer state: buffer, current offset `ofs_` and `last_token_`. -/
structure Lexer where
  input : List Char
  ofs : Nat
  last : Nat
deriving Repr

/-- `Lexer::EatWhitespace`: repeatedly skip runs of spaces, `$`-newline
and `$`-CRLF; stop (without consuming) at anything else, including NUL. -/
def eatWsF (s : List Char) : Nat → Nat → Nat
  | 0, p => p
  | fuel + 1, p =>
      if charAt s p = ' ' then eatWsF s fuel (runWhile (fun c => c = ' ') s (s.length + 1) p)
      else if charAt s p = '$' && charAt s (p + 1) = '\n' then eatWsF s fuel (p + 2)
      else if charAt s p = '$' && charAt s (p + 1) = '\r' && charAt s (p + 2) = '\n' then
        eatWsF s fuel (p + 3)
      else p

def eatWhitespace (lx : Lexer) : Lexer :=
  { lx with ofs := eatWsF lx.input (lx.input.length + 1) lx.ofs }

/-- The `ReadToken` DFA: returns (token, token start, offset after).
The outer loop only restarts after a comment ending in a newline. -/
def readTokenLoop (s : List Char) : Nat → Nat → Token × Nat × Nat
  | 0, p => (.terror, p, p)
  | fuel + 1, p =>
      let c := charAt s p
      if c = charNul then (.teof, p, p + 1)
      else if c = '\n' then (.tnewline, p, p + 1)
      else if c = '\r' then
        if charAt s (p + 1) = '\n' then (.tnewline, p, p + 2) else (.terror, p, p + 1)
      else if c = ' ' then
        let q := runWhile (fun c2 => c2 = ' ') s (s.length + 1) p
        if charAt s q = '\n' then (.tnewline, p, q + 1)
        else if charAt s q = '\r' then
          if charAt s (q + 1) = '\n' then (.tnewline, p, q + 2) else (.tindent, p, q)
        else if charAt s q = '#' then
          let r := runWhile isCommentCh s (s.length + 1) (q + 1)
          if charAt s r = '\n' then readTokenLoop s fuel (r + 1) else (.tindent, p, q)
        else (.tindent, p, q)
      else if c = '#' then
        let r := runWhile isCommentCh s (s.length + 1) (p + 1)
        if charAt s r = '\n' then readTokenLoop s fuel (r + 1) else (.terror, p, p + 1)
      else if isIdentCh c then
        let r := runWhile isIdentCh s (s.length + 1) (p + 1)
        (keywordTok (sliceCh s p r), p, r)
      else if c = ':' then (.tcolon, p, p + 1)
      else if c = '=' then (.tequals, p, p + 1)
      else if c = '|' then
        if charAt s (p + 1) = '|' then (.tpipe2, p, p + 2) else (.tpipe, p, p + 1)
      else (.terror, p, p + 1)

/-- `Lexer::ReadToken`, including the trailing `EatWhitespace` for every
token other than NEWLINE and TEOF. -/
def lexReadToken (lx : Lexer) : Token × Lexer :=
  let r := readTokenLoop lx.input (lx.input.length + 1) lx.ofs
  let lx1 : Lexer := { lx with last := r.2.1, ofs := r.2.2 }
  if r.1 ≠ .tnewline ∧ r.1 ≠ .teof then (r.1, eatWhitespace lx1) else (r.1, lx1)

/-- `Lexer::UnreadToken`. -/
def unreadToken (lx : Lexer) : Lexer := { lx with ofs := lx.last }

/-- `Lexer::PeekToken`. -/
def peekToken (lx : Lexer) (t : Token) : Bool × Lexer :=
  let r := lexReadToken lx
  if r.1 = t then (true, r.2) else (false, unreadToken r.2)

/-- `Lexer::ReadIdent`: an identifier run followed by `EatWhitespace`,
or failure without advancing `ofs_`. -/
def readIdent (lx : Lexer) : Option (List Char) × Lexer :=
  if isIdentCh (charAt lx.input lx.ofs) then
    let r := runWhile isIdentCh lx.input (lx.input.length + 1) (lx.ofs + 1)
    (some (sliceCh lx.input lx.ofs r),
      eatWhitespace { lx with last := lx.ofs, ofs := r })
  else (none, { lx with last := lx.ofs })

/-- A piece of an `EvalString`: literal text or a `$variable`
reference. -/
inductive EvalPart where
  | text (t : List Char)
  | special (v : List Char)
deriving DecidableEq, Repr

/-- `Lexer::ReadEvalString` (the loop body; `path` selects the
terminator behaviour).  Returns the pieces, the `last_token_` value and
the offset after, or the error message of the failing `Lexer::Error`
call (the source prefixes location information; we keep the message). -/
def readEvalF (s : List Char) (path : Bool) :
    Nat → Nat → List EvalPart → Except (List Char) (List EvalPart × Nat × Nat)
  | 0, _, _ => .error "out of fuel".toList
  | fuel + 1, p, acc =>
      let c := charAt s p
      if isEvalLit c then
        let r := runWhile isEvalLit s (s.length + 1) (p + 1)
        readEvalF s path fuel r (acc ++ [.text (sliceCh s p r)])
      else if c = charNul then .error "unexpected EOF".toList
      else if c = '\n' then
        if path then .ok (acc, p, p) else .ok (acc, p, p + 1)
      else if c = ' ' || c = ':' || c = '|' then
        if path then .ok (acc, p, p)
        else readEvalF s path fuel (p + 1) (acc ++ [.text [c]])
      else if c = '\r' then
        if charAt s (p + 1) = '\n' then
          if path then .ok (acc, p, p) else .ok (acc, p, p + 2)
        else .error "lexing error".toList
      else
        let c2 := charAt s (p + 1)
        if isSimpleVarCh c2 then
          let r := runWhile isSimpleVarCh s (s.length + 1) (p + 2)
          readEvalF s path fuel r (acc ++ [.special (sliceCh s (p + 1) r)])
        else if c2 = '\n' then
          readEvalF s path fuel (runWhile (fun c3 => c3 = ' ') s (s.length + 1) (p + 2)) acc
        else if c2 = '\r' && charAt s (p + 2) = '\n' then
          readEvalF s path fuel (runWhile (fun c3 => c3 = ' ') s (s.length + 1) (p + 3)) acc
        else if c2 = ' ' then readEvalF s path fuel (p + 2) (acc ++ [.text [' ']])
        else if c2 = '$' then readEvalF s path fuel (p + 2) (acc ++ [.text ['$']])
        else if c2 = ':' then readEvalF s path fuel (p + 2) (acc ++ [.text [':']])
        else if c2 = '{' then
          let r := runWhile isIdentCh s (s.length + 1) (p + 2)
          if p + 2 < r && charAt s r = '}' then
            readEvalF s path fuel (r + 1) (acc ++ [.special (sliceCh s (p + 2) r)])
          else .error "bad $-escape (literal $ must be written as $$)".toList
        else .error "bad $-escape (literal $ must be written as $$)".toList

/-- `ReadEvalString` wrapper: paths eat trailing whitespace. -/
def readEvalString (lx : Lexer) (path : Bool) :
    Except (List Char) (List EvalPart × Lexer) :=
  match readEvalF lx.input path (lx.input.length + 2) lx.ofs [] with
  | .error e => .error e
  | .ok (parts, last, p) =>
      let lx1 : Lexer := { lx with last := last, ofs := p }
      .ok (parts, if path then eatWhitespace lx1 else lx1)

/-- `Lexer::ReadPath`. -/
def readPath (lx : Lexer) : Except (List Char) (List EvalPart × Lexer) :=
  readEvalString lx true

/-- `Lexer::ReadVarValue`. -/
def readVarValue (lx : Lexer) : Except (List Char) (List EvalPart × Lexer) :=
  readEvalString lx false

/-! ### Manifest state (ninja::State, BindingEnv, EvalString, Rule)

`eval_env.h`/`graph.h` are not among the sources; `EvalString`
evaluation, `BindingEnv` lookup, `Rule::IsReservedBinding`,
`Edge::GetBinding` and `Edge::maybe_phonycycle_diagnostic` are modelled
from the spec.  `State` operations follow src/src/lib/state.cc. -/

def apos : Char := Char.ofNat 39

/-- Wrap a name in single quotes, as the parser error messages do. -/
def q1 (s : List Char) : List Char := [apos] ++ s ++ [apos]

def alist {α : Type} : List (List Char × α) → List Char → Option α
  | [], _ => none
  | (k, v) :: rest, q => if k = q then some v else alist rest q

def setAlist {α : Type} : List (List Char × α) → List Char → α → List (List Char × α)
  | [], k, v => [(k, v)]
  | (k0, v0) :: rest, k, v =>
      if k0 = k then (k0, v) :: rest else (k0, v0) :: setAlist rest k v

structure MRule where
  name : List Char
  bindings : List (List Char × List EvalPart)
deriving DecidableEq, Repr

structure MEdge where
  ruleName : List Char
  edgeBindings : List (List Char × List Char)
  inputs : List (List Char)
  outputs : List (List Char)
  implicitOuts : Nat
  implicitDeps : Nat
  orderOnlyDeps : Nat
  poolName : List Char
deriving DecidableEq, Repr

/-- The parsing-relevant part of `ninja::State` plus the top-level
`BindingEnv` scope: rules, top bindings, pools, interned paths with
their producing edge, edges, defaults. -/
structure MState where
  rules : List MRule
  topBindings : List (List Char × List Char)
  pools : List (List Char × Nat)
  nodes : List (List Char × Option Nat)
  edges : List MEdge
  defaults : List (List Char)
deriving DecidableEq, Repr

/-- `State::State`: the built-in `phony` rule and the pools `""` (depth
0) and `console` (depth 1). -/
def initMState : MState :=
  { rules := [⟨"phony".toList, []⟩], topBindings := [],
    pools := [("".toList, 0), ("console".toList, 1)],
    nodes := [], edges := [], defaults := [] }

/-- `EvalString::Evaluate` against the top-level scope. -/
def evalTop (st : MState) (ps : List EvalPart) : List Char :=
  ps.foldl
    (fun acc p =>
      match p with
      | .text t => acc ++ t
      | .special v => acc ++ (alist st.topBindings v).getD [])
    []

/-- `EvalString::Evaluate` against an edge scope (edge-local bindings
shadow the top scope; the `$in`/`$out` shell expansions of the full
`EdgeEnv` are not needed by any manifest considered here). -/
def evalEdgeEnv (st : MState) (eb : List (List Char × List Char))
    (ps : List EvalPart) : List Char :=
  ps.foldl
    (fun acc p =>
      match p with
      | .text t => acc ++ t
      | .special v => acc ++ ((alist eb v).getD ((alist st.topBindings v).getD [])))
    []

def lookupRule (st : MState) (n : List Char) : Option MRule :=
  st.rules.find? fun r => r.name == n

/-- Modelled from the spec: `Edge::GetBinding` — edge-local binding,
else the rule's binding (an `EvalString`, evaluated in the edge scope),
else the enclosing scope, else empty. -/
def edgeGetBinding (st : MState) (eb : List (List Char × List Char))
    (ruleName key : List Char) : List Char :=
  match alist eb key with
  | some v => v
  | none =>
      match (lookupRule st ruleName).bind fun r => alist r.bindings key with
      | some ps => evalEdgeEnv st eb ps
      | none => (alist st.topBindings key).getD []

/-- Modelled from the spec: `Rule::IsReservedBinding`. -/
def isReservedBinding (k : List Char) : Bool :=
  (["command", "depfile", "description", "deps", "generator", "pool",
    "restat", "rspfile", "rspfile_content", "msvc_deps_prefix"].map
      String.toList).contains k

/-- Modelled from the spec: `Edge::maybe_phonycycle_diagnostic` — a
phony edge with one output and no implicit outputs or deps. -/
def maybePhonycycle (e : MEdge) : Bool :=
  e.ruleName == "phony".toList && e.outputs.length == 1 &&
    e.implicitOuts == 0 && e.implicitDeps == 0

def splitSlash : List Char → List (List Char)
  | [] => [[]]
  | c :: rest =>
      let r := splitSlash rest
      if c = '/' then [] :: r else (c :: r.headD []) :: r.tail

def joinSlash : List (List Char) → List Char
  | [] => []
  | [c] => c
  | c :: rest => c ++ '/' :: joinSlash rest

def canonComps : List (List Char) → List (List Char) → List (List Char)
  | acc, [] => acc
  | acc, c :: rest =>
      if c = [] || c = ['.'] then canonComps acc rest
      else if c = ['.', '.'] then
        if acc ≠ [] && acc.getLastD [] ≠ ['.', '.'] then canonComps acc.dropLast rest
        else canonComps (acc ++ [c]) rest
      else canonComps (acc ++ [c]) rest

/-- Modelled from the spec: `CanonicalizePath` (util.cc is not among the
sources) — error on the empty path, collapse `.`, `..` and duplicate
separators.  Backslash/`slash_bits` handling is not needed here. -/
def canonPath (p : List Char) : Except (List Char) (List Char) :=
  if p = [] then .error "empty path".toList
  else
    let isAbs := p.headD charNul = '/'
    let body := joinSlash (canonComps [] (splitSlash p))
    .ok (if isAbs then '/' :: body else if body = [] then ['.'] else body)

def natDigits (p : List Char) : Nat :=
  (p.takeWhile Char.isDigit).foldl (fun a c => a * 10 + (c.toNat - 48)) 0

/-- Modelled from the spec: C `atol` as used by `ParsePool`. -/
def atolC (p : List Char) : Int :=
  let p1 := p.dropWhile fun c => c = ' ' || c = '\t' || c = '\n' || c = '\r'
  match p1 with
  | '-' :: rest => -(natDigits rest : Int)
  | '+' :: rest => (natDigits rest : Int)
  | _ => (natDigits p1 : Int)

/-- `Lexer::TokenName`. -/
def tokenName : Token → List Char
  | .terror => "lexing error".toList
  | .tbuild => q1 "build".toList
  | .tcolon => q1 ":".toList
  | .tdefault => q1 "default".toList
  | .tequals => q1 "=".toList
  | .tident => "identifier".toList
  | .tinclude => q1 "include".toList
  | .tindent => "indent".toList
  | .tnewline => "newline".toList
  | .tpipe2 => q1 "||".toList
  | .tpipe => q1 "|".toList
  | .tpool => q1 "pool".toList
  | .trule => q1 "rule".toList
  | .tsubninja => q1 "subninja".toList
  | .teof => "eof".toList

/-- `Lexer::DescribeLastError`. -/
def describeLastErr (lx : Lexer) : List Char :=
  if charAt lx.input lx.last = '\t' then "tabs are not allowed, use spaces".toList
  else "lexing error".toList

/-! ### The manifest parser (src/src/lib/manifest_parser.cc) -/

inductive DupeEdgeAction where
  | deWarn | deError
deriving DecidableEq, Repr

inductive PhonyCycleAction where
  | pcWarn | pcError
deriving DecidableEq, Repr

/-- `ManifestParserOptions`. -/
structure MOptions where
  dupeEdgeAction : DupeEdgeAction
  phonyCycleAction : PhonyCycleAction
deriving DecidableEq, Repr

/-- `ManifestParser::ExpectToken`. -/
def expectTok (lx : Lexer) (t : Token) : Except (List Char) Lexer :=
  let r := lexReadToken lx
  if r.1 = t then .ok r.2
  else
    .error ("expected ".toList ++ tokenName t ++ ", got ".toList ++ tokenName r.1 ++
      (if t = .tcolon then " ($ also escapes ".toList ++ q1 ":".toList ++ ")".toList else []))

/-- `ManifestParser::ParseLet`. -/
def parseLet (lx : Lexer) : Except (List Char) (List Char × List EvalPart × Lexer) :=
  match readIdent lx with
  | (none, _) => .error "expected variable name".toList
  | (some key, lx1) =>
      match expectTok lx1 .tequals with
      | .error e => .error e
      | .ok lx2 =>
          match readVarValue lx2 with
          | .error e => .error e
          | .ok (v, lx3) => .ok (key, v, lx3)

/-- The indented `key = value` block of `ParseRule` (values kept as
unevaluated `EvalString`s, later assignments overwrite). -/
def ruleLetsF : Nat → Lexer → List (List Char × List EvalPart) →
    Except (List Char) (List (List Char × List EvalPart) × Lexer)
  | 0, _, _ => .error "out of fuel".toList
  | fuel + 1, lx, acc =>
      let pk := peekToken lx .tindent
      if pk.1 then
        match parseLet pk.2 with
        | .error e => .error e
        | .ok (key, v, lx2) =>
            if isReservedBinding key then ruleLetsF fuel lx2 (setAlist acc key v)
            else .error ("unexpected variable ".toList ++ q1 key)
      else .ok (acc, pk.2)

/-- `ManifestParser::ParseRule`. -/
def parseRuleF (st : MState) (lx : Lexer) : Except (List Char) (MState × Lexer) :=
  match readIdent lx with
  | (none, _) => .error "expected rule name".toList
  | (some name, lx1) =>
      match expectTok lx1 .tnewline with
      | .error e => .error e
      | .ok lx2 =>
          if (lookupRule st name).isSome then .error ("duplicate rule ".toList ++ q1 name)
          else
            match ruleLetsF (lx2.input.length + 2) lx2 [] with
            | .error e => .error e
            | .ok (bs, lx3) =>
                if ((alist bs "rspfile".toList).getD [] = []) ≠
                    ((alist bs "rspfile_content".toList).getD [] = []) then
                  .error "rspfile and rspfile_content need to be both specified".toList
                else if (alist bs "command".toList).getD [] = [] then
                  .error ("expected ".toList ++ q1 "command =".toList ++ " line".toList)
                else .ok ({ st with rules := st.rules ++ [⟨name, bs⟩] }, lx3)

/-- The indented block of `ParsePool` (tracking `depth`, initially -1). -/
def poolLetsF (st : MState) : Nat → Lexer → Int →
    Except (List Char) (Int × Lexer)
  | 0, _, _ => .error "out of fuel".toList
  | fuel + 1, lx, depth =>
      let pk := peekToken lx .tindent
      if pk.1 then
        match parseLet pk.2 with
        | .error e => .error e
        | .ok (key, v, lx2) =>
            if key = "depth".toList then
              let d := atolC (evalTop st v)
              if d < 0 then .error "invalid pool depth".toList
              else poolLetsF st fuel lx2 d
            else .error ("unexpected variable ".toList ++ q1 key)
      else .ok (depth, pk.2)

/-- `ManifestParser::ParsePool`. -/
def parsePoolF (st : MState) (lx : Lexer) : Except (List Char) (MState × Lexer) :=
  match readIdent lx with
  | (none, _) => .error "expected pool name".toList
  | (some name, lx1) =>
      match expectTok lx1 .tnewline with
      | .error e => .error e
      | .ok lx2 =>
          if (alist st.pools name).isSome then .error ("duplicate pool ".toList ++ q1 name)
          else
            match poolLetsF st (lx2.input.length + 2) lx2 (-1) with
            | .error e => .error e
            | .ok (depth, lx3) =>
                if depth < 0 then
                  .error ("expected ".toList ++ q1 "depth =".toList ++ " line".toList)
                else .ok ({ st with pools := st.pools ++ [(name, depth.toNat)] }, lx3)

/-- The body of `ParseDefault`'s do-while loop. -/
def defaultsF : Nat → MState → List EvalPart → Lexer →
    Except (List Char) (MState × Lexer)
  | 0, _, _, _ => .error "out of fuel".toList
  | fuel + 1, st, ev, lx =>
      match canonPath (evalTop st ev) with
      | .error e => .error e
      | .ok path =>
          if (alist st.nodes path).isNone then
            .error ("unknown target ".toList ++ q1 path)
          else
            let st1 := { st with defaults := st.defaults ++ [path] }
            match readPath lx with
            | .error e => .error e
            | .ok (ev2, lx1) =>
                if ev2 = [] then
                  match expectTok lx1 .tnewline with
                  | .error e => .error e
                  | .ok lx2 => .ok (st1, lx2)
                else defaultsF fuel st1 ev2 lx1

/-- `ManifestParser::ParseDefault`. -/
def parseDefaultF (st : MState) (lx : Lexer) : Except (List Char) (MState × Lexer) :=
  match readPath lx with
  | .error e => .error e
  | .ok (ev, lx1) =>
      if ev = [] then .error "expected target name".toList
      else defaultsF (lx.input.length + 2) st ev lx1

/-- Result of a path-list loop: the paths up to an empty read, or a
failing `ReadPath` (which leaves `ofs_` unchanged at the failing call). -/
inductive PathListRes where
  | done (ps : List (List EvalPart)) (lx : Lexer)
  | lexFail (e : List Char) (lx : Lexer)

/-- `for (;;) { ReadPath; if empty break; push }`. -/
def readPathsF : Nat → Lexer → List (List EvalPart) → PathListRes
  | 0, lx, _ => .lexFail "out of fuel".toList lx
  | fuel + 1, lx, acc =>
      match readPath lx with
      | .error e => .lexFail e lx
      | .ok (ev, lx1) =>
          if ev = [] then .done acc lx1 else readPathsF fuel lx1 (acc ++ [ev])

/-- The indented `key = value` block of `ParseEdge`; each value is
evaluated immediately in the enclosing scope (`val.Evaluate(env_)`). -/
def edgeLetsF (st : MState) : Nat → Lexer → List (List Char × List Char) →
    Except (List Char) (List (List Char × List Char) × Lexer)
  | 0, _, _ => .error "out of fuel".toList
  | fuel + 1, lx, acc =>
      let pk := peekToken lx .tindent
      if pk.1 then
        match parseLet pk.2 with
        | .error e => .error e
        | .ok (key, v, lx2) => edgeLetsF st fuel lx2 (setAlist acc key (evalTop st v))
      else .ok (acc, pk.2)

def depsMsg : List Char :=
  "multiple outputs aren".toList ++ [apos] ++
    "t (yet?) supported by depslog; bring this up on the mailing list if it affects you".toList

/-- The output loop of `ParseEdge`: evaluate, canonicalize, `AddOut`;
on a duplicate output either fail (`dupbuild=err`) or skip it, shrinking
`implicit_outs_` when the duplicate was implicit (`e - i <=
implicit_outs`). -/
def addOutsLoop (opts : MOptions) (idx : Nat) :
    MState → MEdge → List (List EvalPart) → Except (List Char) (MState × MEdge)
  | st, e, [] => .ok (st, e)
  | st, e, ev :: rest =>
      match canonPath (evalEdgeEnv st e.edgeBindings ev) with
      | .error er => .error er
      | .ok path =>
          let ns := if (alist st.nodes path).isSome then st.nodes
            else st.nodes ++ [(path, none)]
          match alist ns path with
          | some (some _) =>
              match opts.dupeEdgeAction with
              | .deError =>
                  .error ("multiple rules generate ".toList ++ path ++
                    " [-w dupbuild=err]".toList)
              | .deWarn =>
                  let e1 := if rest.length + 1 ≤ e.implicitOuts then
                      { e with implicitOuts := e.implicitOuts - 1 }
                    else e
                  addOutsLoop opts idx { st with nodes := ns } e1 rest
          | _ =>
              addOutsLoop opts idx { st with nodes := setAlist ns path (some idx) }
                { e with outputs := e.outputs ++ [path] } rest

/-- The input loop of `ParseEdge`: evaluate, canonicalize, `AddIn`. -/
def addInsLoop : MState → MEdge → List (List EvalPart) →
    Except (List Char) (MState × MEdge)
  | st, e, [] => .ok (st, e)
  | st, e, ev :: rest =>
      match canonPath (evalEdgeEnv st e.edgeBindings ev) with
      | .error er => .error er
      | .ok path =>
          let ns := if (alist st.nodes path).isSome then st.nodes
            else st.nodes ++ [(path, none)]
          addInsLoop { st with nodes := ns } { e with inputs := e.inputs ++ [path] } rest

/-- The tail of `ParseEdge` after all paths and bindings are read:
pool check, outputs, empty-output pop, inputs, the phony-cycle filter
and the depslog restriction. -/
def parseEdgeFinish (opts : MOptions) (st : MState) (ruleName : List Char)
    (outs : List (List EvalPart)) (implicitOuts : Nat)
    (ins : List (List EvalPart)) (implicitDeps orderOnly : Nat)
    (eb : List (List Char × List Char)) (lx : Lexer) :
    Except (List Char) (MState × Lexer) :=
  let poolName := edgeGetBinding st eb ruleName "pool".toList
  if poolName ≠ [] ∧ (alist st.pools poolName).isNone then
    .error ("unknown pool name ".toList ++ q1 poolName)
  else
    let edge0 : MEdge :=
      { ruleName := ruleName, edgeBindings := eb, inputs := [], outputs := [],
        implicitOuts := implicitOuts, implicitDeps := 0, orderOnlyDeps := 0,
        poolName := poolName }
    match addOutsLoop opts st.edges.length st edge0 outs with
    | .error e => .error e
    | .ok (st1, e1) =>
        if e1.outputs = [] then .ok (st1, lx)
        else
          match addInsLoop st1 e1 ins with
          | .error er => .error er
          | .ok (st2, e2) =>
              let e3 := { e2 with implicitDeps := implicitDeps,
                                  orderOnlyDeps := orderOnly }
              let e4 :=
                if opts.phonyCycleAction = .pcWarn ∧ maybePhonycycle e3 then
                  { e3 with inputs :=
                      e3.inputs.filter fun i => !(i == e3.outputs.headD []) }
                else e3
              let depsType := edgeGetBinding st2 e4.edgeBindings e4.ruleName "deps".toList
              if depsType ≠ [] ∧ e4.outputs.length > 1 then .error depsMsg
              else .ok ({ st2 with edges := st2.edges ++ [e4] }, lx)

/-- Middle of `ParseEdge`: colon, rule name, inputs, implicit and
order-only deps, newline, bindings.  The implicit-deps loop reproduces
the source's `return err;` (a non-null pointer converted to `true`): a
`ReadPath` failure there makes `ParseEdge` return success without
touching the state. -/
def parseEdgeRest (opts : MOptions) (st : MState) (outs : List (List EvalPart))
    (implicitOuts : Nat) (lx : Lexer) : Except (List Char) (MState × Lexer) :=
  if outs = [] then .error "expected path".toList
  else
    match expectTok lx .tcolon with
    | .error e => .error e
    | .ok lx1 =>
        match readIdent lx1 with
        | (none, _) => .error "expected build command name".toList
        | (some ruleName, lx2) =>
            if (lookupRule st ruleName).isNone then
              .error ("unknown build rule ".toList ++ q1 ruleName)
            else
              match readPathsF (lx2.input.length + 2) lx2 [] with
              | .lexFail e _ => .error e
              | .done ins0 lx3 =>
                  let pk := peekToken lx3 .tpipe
                  match (if pk.1 then readPathsF (lx3.input.length + 2) pk.2 []
                    else .done [] pk.2) with
                  | .lexFail _ lxF => .ok (st, lxF)
                  | .done imps lx4 =>
                      let pk2 := peekToken lx4 .tpipe2
                      match (if pk2.1 then readPathsF (lx4.input.length + 2) pk2.2 []
                        else .done [] pk2.2) with
                      | .lexFail e _ => .error e
                      | .done oo lx5 =>
                          match expectTok lx5 .tnewline with
                          | .error e => .error e
                          | .ok lx6 =>
                              match edgeLetsF st (lx6.input.length + 2) lx6 [] with
                              | .error e => .error e
                              | .ok (eb, lx7) =>
                                  parseEdgeFinish opts st ruleName outs implicitOuts
                                    (ins0 ++ imps ++ oo) imps.length oo.length eb lx7

/-- `ManifestParser::ParseEdge`.  The implicit-outputs loop also has the
source's `return err;` success-on-failure. -/
def parseEdgeF (opts : MOptions) (st : MState) (lx : Lexer) :
    Except (List Char) (MState × Lexer) :=
  match readPathsF (lx.input.length + 2) lx [] with
  | .lexFail e _ => .error e
  | .done outs0 lx1 =>
      let pk := peekToken lx1 .tpipe
      match (if pk.1 then readPathsF (lx1.input.length + 2) pk.2 []
        else .done [] pk.2) with
      | .lexFail _ lxF => .ok (st, lxF)
      | .done imps lx2 => parseEdgeRest opts st (outs0 ++ imps) imps.length lx2

/-- `ManifestParser::Parse`: the statement dispatch loop.
`ninja_required_version` checking is a warning/exit side effect and is
not modelled; `include`/`subninja` fail as with an empty filesystem
(`FileReader::ReadFile` cannot succeed in the model). -/
def parseLoopF (opts : MOptions) : Nat → MState → Lexer → Except (List Char) MState
  | 0, _, _ => .error "out of fuel".toList
  | fuel + 1, st, lx =>
      let r := lexReadToken lx
      match r.1 with
      | .tpool =>
          match parsePoolF st r.2 with
          | .error e => .error e
          | .ok (st1, lx1) => parseLoopF opts fuel st1 lx1
      | .tbuild =>
          match parseEdgeF opts st r.2 with
          | .error e => .error e
          | .ok (st1, lx1) => parseLoopF opts fuel st1 lx1
      | .trule =>
          match parseRuleF st r.2 with
          | .error e => .error e
          | .ok (st1, lx1) => parseLoopF opts fuel st1 lx1
      | .tdefault =>
          match parseDefaultF st r.2 with
          | .error e => .error e
          | .ok (st1, lx1) => parseLoopF opts fuel st1 lx1
      | .tident =>
          match parseLet (unreadToken r.2) with
          | .error e => .error e
          | .ok (name, v, lx1) =>
              let value := evalTop st v
              parseLoopF opts fuel
                { st with topBindings := setAlist st.topBindings name value } lx1
      | .tinclude =>
          match readPath r.2 with
          | .error e => .error e
          | .ok (ev, _) => .error ("loading ".toList ++ q1 (evalTop st ev))
      | .tsubninja =>
          match readPath r.2 with
          | .error e => .error e
          | .ok (ev, _) => .error ("loading ".toList ++ q1 (evalTop st ev))
      | .terror => .error (describeLastErr r.2)
      | .teof => .ok st
      | .tnewline => parseLoopF opts fuel st r.2
      | t => .error ("unexpected ".toList ++ tokenName t)

/-- `ManifestParser::Parse` on a complete input buffer. -/
def parseManifest (opts : MOptions) (input : List Char) : Except (List Char) MState :=
  parseLoopF opts (input.length + 2) initMState { input := input, ofs := 0, last := 0 }

/-- Whether a parse result is the given error message. -/
def isErrorWith (r : Except (List Char) MState) (m : List Char) : Bool :=
  match r with
  | .error e => e == m
  | .ok _ => false

/-- C6 original is refuted on its second half: parsing
`build x: phony x` with `phonycycle=err` does NOT fail.  The
`kPhonyCycleActionError` option merely skips the input filter in
`ParseEdge` (src/lib/manifest_parser.cc lines 392-410); parsing succeeds
and the edge keeps its self-input — the error surfaces only later, in
the dirty scan's cycle detection, which is outside the parser. -/
theorem phony_cycle_err_cex :
    (parseManifest ⟨.deWarn, .pcError⟩ "build x: phony x\n".toList).toOption.map
      (fun st => st.edges.map MEdge.inputs) = some [["x".toList]] := by
  decide

/-- C6 (amended): parsing `build x: phony x` with `phonycycle=warn`
succeeds and the self-input is filtered out (the edge's input list is
empty, with a warning); with `phonycycle=err` parsing ALSO succeeds, and
the self-input is retained — the configurable error is raised later by
the cycle check of the dirty scan, not by the parser. -/
theorem phony_cycle_policy :
    (parseManifest ⟨.deWarn, .pcWarn⟩ "build x: phony x\n".toList).toOption.map
      (fun st => st.edges.map MEdge.inputs) = some [[]] ∧
    (parseManifest ⟨.deWarn, .pcError⟩ "build x: phony x\n".toList).toOption.map
      (fun st => st.edges.map MEdge.inputs) = some [["x".toList]] := by
  constructor
  · decide
  · decide

/-- C7 original is refuted: the depslog restriction counts ALL outputs
(`edge->outputs_.size() > 1`), not just explicit ones, so an edge with a
`deps` binding, one explicit output and one implicit output is rejected
with the depslog error rather than parsing successfully. -/
theorem deps_multiple_outputs_cex :
    isErrorWith (parseManifest ⟨.deWarn, .pcWarn⟩
      "rule r\n  command = c\n  deps = gcc\nbuild a | b: r\n".toList) depsMsg = true := by
  decide

/-- C7 (amended): `ParseEdge` rejects an edge exactly when its `deps`
binding is non-empty and its TOTAL output count (explicit plus implicit)
exceeds one: a `deps` edge with a single output parses; a `deps` edge
with two explicit outputs, or one explicit and one implicit output,
fails with the depslog error; two outputs without `deps` parse. -/
theorem deps_multiple_outputs :
    (parseManifest ⟨.deWarn, .pcWarn⟩
      "rule r\n  command = c\n  deps = gcc\nbuild a: r\n".toList).toOption.map
        (fun st => st.edges.map fun e => e.outputs.length) = some [1] ∧
    isErrorWith (parseManifest ⟨.deWarn, .pcWarn⟩
      "rule r\n  command = c\n  deps = gcc\nbuild a b: r\n".toList) depsMsg = true ∧
    isErrorWith (parseManifest ⟨.deWarn, .pcWarn⟩
      "rule r\n  command = c\n  deps = gcc\nbuild a | b: r\n".toList) depsMsg = true ∧
    (parseManifest ⟨.deWarn, .pcWarn⟩
      "rule r\n  command = c\nbuild a b: r\n".toList).toOption.map
        (fun st => st.edges.map fun e => e.outputs.length) = some [2] := by
  refine ⟨by decide, by decide, by decide, by decide⟩

end Majak
